import Mathlib

/-!
Verification of the PII redaction engine of this repository
(`PII/pii_redactor.py`, `PII/pii_patterns.py`, `PII/pii_redactor_advanced.py`).

Text is modelled as `List Char`.  Python dictionaries are modelled as
association lists in insertion order (`alookup` is `d[k]` / `k in d`,
`insertA` is `d[k] = v`: update in place when the key exists, append
otherwise, matching CPython's insertion-ordered dicts).  `str.replace`
(replace every non-overlapping occurrence, scanning left to right) is
`pyReplace`; Python's `in` test on strings (substring containment) is
`occurs`.  `re.finditer` over the eight regex patterns of
`pii_patterns.py` is implemented by a backtracking matcher (`mrun`) whose
preference order (leftmost position first, alternatives left to right,
greedy quantifiers) matches CPython's `re` engine on these patterns.
-/

set_option autoImplicit false

namespace PIIProof

abbrev Str := List Char

/-- Python substring containment `pat in hay` (`""` is contained in everything). -/
def occurs (pat : Str) : Str → Bool
  | [] => pat.isPrefixOf []
  | c :: t => pat.isPrefixOf (c :: t) || occurs pat t

/-- Chars that never appear in text that the token machinery treats as literal:
the engine wraps every minted token in square brackets. -/
def bracketFree (s : Str) : Bool :=
  s.all fun c => decide (c ≠ '[') && decide (c ≠ ']')

/-- Fuelled core of Python `str.replace` for a nonempty pattern:
scan left to right, replace each non-overlapping occurrence. -/
def pyReplaceF (pat rep : Str) : Nat → Str → Str
  | 0, _ => []
  | f + 1, hay =>
    if pat.isPrefixOf hay then rep ++ pyReplaceF pat rep f (hay.drop pat.length)
    else
      match hay with
      | [] => []
      | c :: t => c :: pyReplaceF pat rep f t

/-- Python `hay.replace(pat, rep)`.  For the empty pattern Python inserts
`rep` before every character and at the end. -/
def pyReplace (hay pat rep : Str) : Str :=
  if pat.isEmpty then rep ++ hay.flatMap (fun c => c :: rep)
  else pyReplaceF pat rep hay.length hay

/-- Extend the first returned segment by one leading character. -/
def consHead (c : Char) : List Str → List Str
  | [] => [[c]]
  | p :: ps => (c :: p) :: ps

/-- Fuelled core of Python `hay.split(pat)` for a nonempty pattern. -/
def splitAllF (pat : Str) : Nat → Str → List Str
  | 0, _ => [[]]
  | f + 1, hay =>
    if pat.isPrefixOf hay then [] :: splitAllF pat f (hay.drop pat.length)
    else
      match hay with
      | [] => [[]]
      | c :: t => consHead c (splitAllF pat f t)

/-- Python `hay.split(pat)` for a nonempty pattern. -/
def splitAll (hay pat : Str) : List Str :=
  splitAllF pat hay.length hay

/-- Join a list of segments with a separator (`sep.join(pieces)` in Python). -/
def interc (sep : Str) : List Str → Str
  | [] => []
  | [p] => p
  | p :: ps => p ++ sep ++ interc sep ps

section Assoc

variable {κ : Type} {β : Type} [DecidableEq κ]

/-- Python `d.get(k)` / `k in d`: first entry with the given key. -/
def alookup (d : List (κ × β)) (k : κ) : Option β :=
  match d with
  | [] => none
  | (k', v) :: rest => if k' = k then some v else alookup rest k

/-- Python `d[k] = v` on an insertion-ordered dict: update the existing
entry in place, or append a new one. -/
def insertA (d : List (κ × β)) (k : κ) (v : β) : List (κ × β) :=
  match d with
  | [] => [(k, v)]
  | (k', v') :: rest => if k' = k then (k, v) :: rest else (k', v') :: insertA rest k v

/-- Python `del d[k]` (no-op when the key is absent, as used under an
`if k in d` guard). -/
def eraseA (d : List (κ × β)) (k : κ) : List (κ × β) :=
  d.filter fun p => decide (p.1 ≠ k)

theorem alookup_insertA_self (d : List (κ × β)) (k : κ) (v : β) :
    alookup (insertA d k v) k = some v := by
  induction d with
  | nil => simp [insertA, alookup]
  | cons p rest ih =>
    by_cases h : p.1 = k
    · simp [insertA, h, alookup]
    · simp [insertA, h, alookup, ih]

theorem alookup_insertA_ne (d : List (κ × β)) (k k' : κ) (v : β) (h : k' ≠ k) :
    alookup (insertA d k v) k' = alookup d k' := by
  induction d with
  | nil => simp [insertA, alookup, Ne.symm h]
  | cons p rest ih =>
    by_cases hp : p.1 = k
    · have hpk : p.1 ≠ k' := by rw [hp]; exact Ne.symm h
      simp only [insertA, if_pos hp, alookup, if_neg (Ne.symm h), if_neg hpk]
    · simp only [insertA, if_neg hp]
      by_cases hp' : p.1 = k'
      · simp [alookup, hp']
      · simp [alookup, hp', ih]

theorem alookup_eraseA_self (d : List (κ × β)) (k : κ) :
    alookup (eraseA d k) k = none := by
  induction d with
  | nil => simp [eraseA, alookup]
  | cons p rest ih =>
    by_cases h : p.1 = k
    · simpa [eraseA, h] using ih
    · simpa [eraseA, h, alookup] using ih

theorem eraseA_eraseA (d : List (κ × β)) (k : κ) :
    eraseA (eraseA d k) k = eraseA d k := by
  simp [eraseA, List.filter_filter]

theorem eraseA_of_alookup_none (d : List (κ × β)) (k : κ) (h : alookup d k = none) :
    eraseA d k = d := by
  induction d with
  | nil => rfl
  | cons p rest ih =>
    by_cases hp : p.1 = k
    · simp [alookup, hp] at h
    · simp only [alookup, if_neg hp] at h
      simp [eraseA, hp] at ih ⊢
      exact ih h

theorem alookup_mem {d : List (κ × β)} {k : κ} {v : β} (h : alookup d k = some v) :
    (k, v) ∈ d := by
  induction d with
  | nil => simp [alookup] at h
  | cons p rest ih =>
    obtain ⟨pk, pv⟩ := p
    by_cases hp : pk = k
    · simp only [alookup, if_pos hp] at h
      cases h
      subst hp
      exact List.mem_cons_self _ _
    · simp only [alookup, if_neg hp] at h
      exact List.mem_cons_of_mem _ (ih h)

end Assoc

/-! ### A backtracking regex matcher for the patterns of `pii_patterns.py`

`RE` covers exactly the constructs those eight patterns use: character
classes (lists of inclusive ranges), concatenation, alternation, greedy
Kleene star and the word-boundary assertion `\b`.  Bounded quantifiers
(`?`, `{m,n}`, `+`, `{2,}`) are expanded with the smart constructors
below, preserving the greedy preference order of CPython's `re`. -/

inductive RE : Type where
  | emp : RE
  | cls (ranges : List (Char × Char)) : RE
  | seqr (a b : RE) : RE
  | altr (a b : RE) : RE
  | star (a : RE) : RE
  | wb : RE
deriving Repr

def inCls (ranges : List (Char × Char)) (c : Char) : Bool :=
  ranges.any fun r => decide (r.1 ≤ c) && decide (c ≤ r.2)

/-- Python `\w`: `[A-Za-z0-9_]` (ASCII view, which covers all inputs here). -/
def wordChar (c : Char) : Bool :=
  inCls [('A', 'Z'), ('a', 'z'), ('0', '9'), ('_', '_')] c

def wordFlag : Option Char → Bool
  | none => false
  | some c => wordChar c

/-- Structure size of a regex, used to bound the matcher's fuel. -/
def reSize : RE → Nat
  | .emp => 1
  | .cls _ => 1
  | .seqr a b => reSize a + reSize b + 1
  | .altr a b => reSize a + reSize b + 1
  | .star a => reSize a + 1
  | .wb => 1

/-- Backtracking matcher in continuation-passing style.  `prev` is the
character just before the current position (for `\b`); alternatives are
tried left to right and `star` is greedy (tries one more iteration
first), matching CPython's backtracking engine.  The star loop repeats
only while it consumes input, and the fuel is an upper bound on the
call depth, generous enough for every use in this file. -/
def mrun {α : Type} : Nat → RE → Option Char → Str → (Option Char → Str → Option α) → Option α
  | 0, _, _, _, _ => none
  | _ + 1, .emp, prev, s, k => k prev s
  | _ + 1, .cls rs, _, s, k =>
    match s with
    | [] => none
    | c :: t => if inCls rs c then k (some c) t else none
  | _ + 1, .wb, prev, s, k =>
    if wordFlag prev != wordFlag s.head? then k prev s else none
  | f + 1, .seqr a b, prev, s, k =>
    mrun f a prev s fun p' s' => mrun f b p' s' k
  | f + 1, .altr a b, prev, s, k =>
    (mrun f a prev s k).orElse fun _ => mrun f b prev s k
  | f + 1, .star a, prev, s, k =>
    (mrun f a prev s fun p' s' =>
      if s'.length < s.length then mrun f (.star a) p' s' k else none).orElse
      fun _ => k prev s

/-- Try to match `r` at the start of `s` (the char before `s` being
`prev`); returns the length of the preferred match, like
`re.match` + `group(0)`. -/
def tryMatch (r : RE) (prev : Option Char) (s : Str) : Option Nat :=
  mrun ((s.length + 1) * (reSize r + 1) + 1) r prev s fun _ s' => some (s.length - s'.length)

def findIterAux (r : RE) : Nat → Option Char → Str → List Str
  | 0, _, _ => []
  | f + 1, prev, s =>
    match tryMatch r prev s with
    | some 0 =>
      [] :: (match s with
             | [] => []
             | c :: t => findIterAux r f (some c) t)
    | some (l + 1) =>
      s.take (l + 1) :: findIterAux r f ((s.take (l + 1)).getLast?) (s.drop (l + 1))
    | none =>
      match s with
      | [] => []
      | c :: t => findIterAux r f (some c) t

/-- `re.finditer(r, s)`: the list of (non-overlapping, leftmost-preferred)
match strings, in order. -/
def findIter (r : RE) (s : Str) : List Str :=
  findIterAux r (s.length + 1) none s

/-! Smart constructors mirroring regex syntax. -/

def rlit1 (c : Char) : RE := .cls [(c, c)]

def rstr : Str → RE
  | [] => .emp
  | [c] => rlit1 c
  | c :: t => .seqr (rlit1 c) (rstr t)

def rseq : List RE → RE
  | [] => .emp
  | [r] => r
  | r :: rs => .seqr r (rseq rs)

/-- Greedy `r?`. -/
def ropt (r : RE) : RE := .altr r .emp

/-- Exactly `n` copies of `r`. -/
def rexact (r : RE) (n : Nat) : RE :=
  match n with
  | 0 => .emp
  | 1 => r
  | n + 1 => .seqr r (rexact r n)

/-- Greedy `r{1,n}` (`r` then up to `n - 1` more, preferring more). -/
def rupto1 (r : RE) : Nat → RE
  | 0 => r
  | 1 => r
  | n + 1 => .seqr r (ropt (rupto1 r n))

/-- Greedy `r+`. -/
def rplus (r : RE) : RE := .seqr r (.star r)

/-- Greedy `r{n,}`. -/
def ratleast (r : RE) (n : Nat) : RE := .seqr (rexact r n) (.star r)

/-- Greedy alternation of literal strings, in the order written. -/
def ralts : List Str → RE
  | [] => .emp
  | [w] => rstr w
  | w :: ws => .altr (rstr w) (ralts ws)

/-! ### The pattern catalog of `pii_patterns.py` -/

def rdigit : RE := .cls [('0', '9')]

/-- Python `\s` (the ASCII whitespace characters, which cover all text here). -/
def clsWs : List (Char × Char) :=
  [(' ', ' '), ('\t', '\t'), ('\n', '\n'), ('\x0b', '\x0b'), ('\x0c', '\x0c'), ('\r', '\r')]

/-- `\b[A-Za-z0-9._%+-]+@[A-Za-z0-9.-]+\.[A-Z|a-z]{2,}\b` (note: the source's
trailing class literally contains `|`). -/
def reEmail : RE :=
  rseq [.wb,
        rplus (.cls [('A', 'Z'), ('a', 'z'), ('0', '9'), ('.', '.'), ('_', '_'),
                     ('%', '%'), ('+', '+'), ('-', '-')]),
        rlit1 '@',
        rplus (.cls [('A', 'Z'), ('a', 'z'), ('0', '9'), ('.', '.'), ('-', '-')]),
        rlit1 '.',
        ratleast (.cls [('A', 'Z'), ('|', '|'), ('a', 'z')]) 2,
        .wb]

/-- `\b(?:\+?1[-.]?)?\(?([0-9]{3})\)?[-.]?([0-9]{3})[-.]?([0-9]{4})\b`
(the capturing groups do not affect `group(0)`). -/
def rePhone : RE :=
  rseq [.wb,
        ropt (rseq [ropt (rlit1 '+'), rlit1 '1', ropt (.cls [('-', '-'), ('.', '.')])]),
        ropt (rlit1 '('),
        rexact rdigit 3,
        ropt (rlit1 ')'),
        ropt (.cls [('-', '-'), ('.', '.')]),
        rexact rdigit 3,
        ropt (.cls [('-', '-'), ('.', '.')]),
        rexact rdigit 4,
        .wb]

/-- `\b\d{3}-\d{2}-\d{4}\b` -/
def reSsn : RE :=
  rseq [.wb, rexact rdigit 3, rlit1 '-', rexact rdigit 2, rlit1 '-', rexact rdigit 4, .wb]

/-- `\b\d{4}[-\s]?\d{4}[-\s]?\d{4}[-\s]?\d{4}\b` -/
def reCreditCard : RE :=
  rseq [.wb, rexact rdigit 4, ropt (.cls (('-', '-') :: clsWs)),
        rexact rdigit 4, ropt (.cls (('-', '-') :: clsWs)),
        rexact rdigit 4, ropt (.cls (('-', '-') :: clsWs)),
        rexact rdigit 4, .wb]

/-- `\b(?:[0-9]{1,3}\.){3}[0-9]{1,3}\b` -/
def reIpAddress : RE :=
  rseq [.wb, rexact (.seqr (rupto1 rdigit 3) (rlit1 '.')) 3, rupto1 rdigit 3, .wb]

/-- Date of birth: month `0[1-9]|1[0-2]`, then a separator (slash or dash),
then day `0[1-9]|[12][0-9]|3[01]`, a separator again, then `(?:19|20)\d{2}`,
all between word boundaries. -/
def reDob : RE :=
  rseq [.wb,
        .altr (.seqr (rlit1 '0') (.cls [('1', '9')])) (.seqr (rlit1 '1') (.cls [('0', '2')])),
        .cls [('/', '/'), ('-', '-')],
        .altr (.seqr (rlit1 '0') (.cls [('1', '9')]))
          (.altr (.seqr (.cls [('1', '2')]) rdigit) (.seqr (rlit1 '3') (.cls [('0', '1')]))),
        .cls [('/', '/'), ('-', '-')],
        .altr (rstr "19".toList) (rstr "20".toList),
        rexact rdigit 2,
        .wb]

/-- `\b(?:[A-Z][a-z]+ ){1,2}[A-Z][a-z]+\b` -/
def reName : RE :=
  rseq [.wb,
        rupto1 (rseq [.cls [('A', 'Z')], rplus (.cls [('a', 'z')]), rlit1 ' ']) 2,
        .cls [('A', 'Z')], rplus (.cls [('a', 'z')]),
        .wb]

/-- `\b\d+\s+[A-Za-z\s]+(?:Street|St|Avenue|Ave|Road|Rd|Boulevard|Blvd|Lane|Ln|Drive|Dr)\b` -/
def reAddress : RE :=
  rseq [.wb, rplus rdigit, rplus (.cls clsWs),
        rplus (.cls (('A', 'Z') :: ('a', 'z') :: clsWs)),
        ralts (["Street", "St", "Avenue", "Ave", "Road", "Rd",
                "Boulevard", "Blvd", "Lane", "Ln", "Drive", "Dr"].map String.toList),
        .wb]

/-- `PII_PATTERNS` of `pii_patterns.py`, in dict insertion order:
(key, pattern, label, description). -/
def PII_PATTERNS : List (String × RE × Str × Str) :=
  [("email", reEmail, "EMAIL".toList, "Email address".toList),
   ("phone", rePhone, "PHONE".toList, "Phone number".toList),
   ("ssn", reSsn, "SSN".toList, "Social Security Number".toList),
   ("credit_card", reCreditCard, "CREDIT_CARD".toList, "Credit card number".toList),
   ("ip_address", reIpAddress, "IP_ADDRESS".toList, "IP address".toList),
   ("date_of_birth", reDob, "DOB".toList, "Date of birth".toList),
   ("name", reName, "PERSON".toList, "Person name".toList),
   ("address", reAddress, "ADDRESS".toList, "Physical address".toList)]

/-- `KNOWN_NAMES` of `pii_patterns.py`. -/
def KNOWN_NAMES : List Str :=
  ["Garlapati Venkata Srinivas",
   "Akhil Shanmukha Kothamasu",
   "Madhu Vutukuri",
   "Srinivas",
   "Akhil",
   "Madhu"].map String.toList

/-! ### The redaction engine of `pii_redactor.py`

A `PIIRedactor` instance holds `redaction_map : {session_id: {token:
original_value}}` and `token_counters : {session_id: {pii_type:
counter}}`.  `redact` mutates the two per-session dicts in place while
looping; the model threads the session's two association lists through
the loops and writes them back at the end, which has the same net
effect.  Besides the values the Python code returns, the model's
`redactFullWith` also returns the chronological list `ops` of
`(original_value, token)` text replacements it performed — ghost output
used only to state and prove the round-trip property. -/

/-- One value of the per-call `redactions` metadata dict:
`{'type': …, 'original': …, 'description': …}`. -/
abbrev MetaEntry := Str × Str × Str

abbrev Metadata := List (Str × MetaEntry)

abbrev SMap := List (Str × Str)

abbrev Ctrs := List (Str × Nat)

/-- The two instance dicts set up in `PIIRedactor.__init__`. -/
structure RedactorState where
  redaction_map : List (String × SMap)
  token_counters : List (String × Ctrs)
deriving Repr, DecidableEq

/-- `PIIRedactor.__init__`: both dicts start empty. -/
def freshState : RedactorState := ⟨[], []⟩

/-- The reverse scan in `_get_or_create_token`:
`for token, value in session_map.items(): if value == original_value:
return token`. -/
def reverseLookup (smap : SMap) (value : Str) : Option Str :=
  match smap with
  | [] => none
  | (tok, v) :: rest => if v = value then some tok else reverseLookup rest value

/-- `PIIRedactor._get_or_create_token`, acting on the session's two dicts:
reverse-scan the session map for an entry whose value equals
`original_value` (returning its token unchanged), else increment the
per-category counter (initialising it to 0 first) and mint
`f"{pii_type}_{counter}"`. -/
def getOrCreateToken (smap : SMap) (ctrs : Ctrs) (piiType value : Str) :
    Str × SMap × Ctrs :=
  match reverseLookup smap value with
  | some tok => (tok, smap, ctrs)
  | none =>
    let c := (alookup ctrs piiType).getD 0 + 1
    let tok := piiType ++ '_' :: Nat.toDigits 10 c
    (tok, insertA smap tok value, insertA ctrs piiType c)

/-- The working state threaded through `redact`'s loops:
working text, session map, session counters, per-call metadata,
and the ghost list of performed replacements. -/
structure Working where
  text : Str
  smap : SMap
  ctrs : Ctrs
  meta : Metadata
  ops : List (Str × Str)
deriving Repr, DecidableEq

/-- The `for name in KNOWN_NAMES` loop of `PIIRedactor.redact`:
replace every occurrence of each known name that occurs in the working
text with its bracketed `PERSON` token. -/
def knownPass : List Str → Working → Working
  | [], w => w
  | name :: rest, w =>
    if occurs name w.text then
      let g := getOrCreateToken w.smap w.ctrs "PERSON".toList name
      knownPass rest
        { text := pyReplace w.text name ('[' :: g.1 ++ [']']),
          smap := g.2.1, ctrs := g.2.2,
          meta := insertA w.meta g.1 ("PERSON".toList, name, "Known person name".toList),
          ops := w.ops ++ [(name, g.1)] }
    else knownPass rest w

/-- The `for match in matches` loop of `PIIRedactor.redact`: skip matches
that already look like an emitted token (`[...]`), otherwise tokenize and
replace every occurrence of the matched substring. -/
def matchPass (label descr : Str) : List Str → Working → Working
  | [], w => w
  | m :: ms, w =>
    if m.head? = some '[' ∧ m.getLast? = some ']' then matchPass label descr ms w
    else
      let g := getOrCreateToken w.smap w.ctrs label m
      matchPass label descr ms
        { text := pyReplace w.text m ('[' :: g.1 ++ [']']),
          smap := g.2.1, ctrs := g.2.2,
          meta := insertA w.meta g.1 (label, m, descr),
          ops := w.ops ++ [(m, g.1)] }

/-- The `for pii_type, config in PII_PATTERNS.items()` loop: `re.finditer`
is evaluated lazily against the string object bound at call time, i.e.
against a snapshot of the working text taken at the start of each
category. -/
def patternPass : List (String × RE × Str × Str) → Working → Working
  | [], w => w
  | (_, re, label, descr) :: rest, w =>
    patternPass rest (matchPass label descr (findIter re w.text) w)

/-- The session initialisation at the top of `PIIRedactor.redact`: when
`session_id not in self.redaction_map`, both per-session dicts are
(re)set to `{}`; otherwise the existing dicts are used (the two are
always created together, so the counter dict is present whenever the map
is). -/
def sessionView (st : RedactorState) (sid : String) : SMap × Ctrs :=
  match alookup st.redaction_map sid with
  | none => ([], [])
  | some m => (m, (alookup st.token_counters sid).getD [])

/-- `PIIRedactor.redact`, parameterised over the known-name list and the
pattern catalog (the source reads them from module constants), and
additionally returning the ghost replacement trace. -/
def redactFullWith (names : List Str) (pats : List (String × RE × Str × Str))
    (st : RedactorState) (text : Str) (sid : String) :
    Str × Metadata × RedactorState × List (Str × Str) :=
  if text = [] then (text, [], st, [])
  else
    let sv := sessionView st sid
    let w := patternPass pats (knownPass names ⟨text, sv.1, sv.2, [], []⟩)
    (w.text, w.meta,
     ⟨insertA st.redaction_map sid w.smap, insertA st.token_counters sid w.ctrs⟩,
     w.ops)

/-- `PIIRedactor.redact` with the repository's own constants. -/
def redactFull (st : RedactorState) (text : Str) (sid : String) :
    Str × Metadata × RedactorState × List (Str × Str) :=
  redactFullWith KNOWN_NAMES PII_PATTERNS st text sid

/-- `PIIRedactor.redact` as the Python caller sees it:
`(redacted_text, redaction_metadata)` plus the updated instance state. -/
def redact (st : RedactorState) (text : Str) (sid : String) :
    Str × Metadata × RedactorState :=
  let r := redactFull st text sid
  (r.1, r.2.1, r.2.2.1)

/-- A sequence of `redact` calls against one session, keeping the state. -/
def redactMany (st : RedactorState) (sid : String) : List Str → RedactorState
  | [] => st
  | t :: ts => redactMany (redact st t sid).2.2 sid ts

/-- `PIIRedactor.restore`: for every `(token, original_value)` pair in the
session's map (in insertion order), replace `[token]` by the value;
empty text or an unknown session is returned unchanged. -/
def restore (st : RedactorState) (text : Str) (sid : String) : Str :=
  if text = [] then text
  else
    match alookup st.redaction_map sid with
    | none => text
    | some m => m.foldl (fun tx tv => pyReplace tx ('[' :: tv.1 ++ [']']) tv.2) text

/-- The token's category label as `get_redaction_stats` recovers it:
`token.rsplit('_', 1)[0]`. -/
def rsplitHead (tok : Str) : Str :=
  match tok.reverse.dropWhile (fun c => decide (c ≠ '_')) with
  | [] => tok
  | _ :: rest => rest.reverse

/-- The dict returned by `PIIRedactor.get_redaction_stats`. -/
structure Stats where
  total_redactions : Nat
  by_type : List (Str × Nat)
deriving Repr, DecidableEq

/-- `PIIRedactor.get_redaction_stats`. -/
def getRedactionStats (st : RedactorState) (sid : String) : Stats :=
  match alookup st.redaction_map sid with
  | none => ⟨0, []⟩
  | some m =>
    ⟨m.length,
     m.foldl (fun bt tv =>
       insertA bt (rsplitHead tv.1) ((alookup bt (rsplitHead tv.1)).getD 0 + 1)) []⟩

/-- `PIIRedactor.clear_session`: delete the session's entries from both
dicts, each under an `if session_id in …` guard. -/
def clearSession (st : RedactorState) (sid : String) : RedactorState :=
  let rm := if alookup st.redaction_map sid = none then st.redaction_map
            else eraseA st.redaction_map sid
  let tc := if alookup st.token_counters sid = none then st.token_counters
            else eraseA st.token_counters sid
  ⟨rm, tc⟩

/-- `PIIRedactor.export_redaction_map`: `none` models the bare `{}`
returned for an unknown session; otherwise the
`{'session_id', 'redaction_map', 'stats'}` record. -/
def exportRedactionMap (st : RedactorState) (sid : String) :
    Option (String × SMap × Stats) :=
  match alookup st.redaction_map sid with
  | none => none
  | some m => some (sid, m, getRedactionStats st sid)

/-! ### The statistical backend wrapper of `pii_redactor_advanced.py`

The LLM Guard scanner is an external library, so `advRedact` is
parameterised over a `scan` function (`Anonymize(...).scan`), which
either returns `(sanitized_text, is_valid, risk_score)` or raises; the
risk score's type is opaque here.  Python attribute access on an
attribute that was never assigned raises `AttributeError`, which the
model makes explicit: `AdvancedPIIRedactor.__init__` assigns
`self.fallback_redactor` only in its `else` branch (when LLM Guard is
not used), so the field is an `Option` that is `none` in the LLM Guard
configuration. -/

structure AdvancedPIIRedactor where
  use_llm_guard : Bool
  fallback_redactor : Option RedactorState

/-- `AdvancedPIIRedactor.__init__(use_llm_guard)` under a given value of
the import-time flag `LLM_GUARD_AVAILABLE`. -/
def advInit (use_llm_guard LLM_GUARD_AVAILABLE : Bool) : AdvancedPIIRedactor :=
  if use_llm_guard && LLM_GUARD_AVAILABLE then
    { use_llm_guard := true, fallback_redactor := none }
  else
    { use_llm_guard := false, fallback_redactor := some freshState }

/-- An uncaught Python exception escaping `AdvancedPIIRedactor.redact`. -/
inductive PyError : Type where
  | attributeError : PyError
deriving Repr, DecidableEq

/-- The metadata dict returned by `AdvancedPIIRedactor.redact`:
either the LLM Guard record, or the pattern engine's metadata from the
fallback path, or the bare `{}` for empty input. -/
inductive AdvMeta (ρ : Type) : Type where
  | emptyDict : AdvMeta ρ
  | llmGuard (is_valid : Bool) (risk_score : ρ) (original_length redacted_length : Nat)
      (session_id : String) (redactions_count : Nat) : AdvMeta ρ
  | fallbackMeta (meta : Metadata) : AdvMeta ρ

/-- Number of `'['` characters, for the `redactions_count` estimate
(`max(0, text.count('[') - sanitized_text.count('['))`; `Nat`
subtraction is exactly that clamped difference). -/
def countOpenBrackets (s : Str) : Nat :=
  (s.filter (fun c => decide (c = '['))).length

/-- `AdvancedPIIRedactor.redact`, with the scanner call abstracted as
`scan` (`Except.error` models the scanner raising). -/
def advRedact {ρ : Type} (scan : Str → Except String (Str × Bool × ρ))
    (r : AdvancedPIIRedactor) (text : Str) (sid : String) :
    Except PyError ((Str × AdvMeta ρ) × AdvancedPIIRedactor) :=
  if text = [] then .ok ((text, .emptyDict), r)
  else if r.use_llm_guard then
    match scan text with
    | .ok (san, valid, risk) =>
      .ok ((san, .llmGuard valid risk text.length san.length sid
              (countOpenBrackets text - countOpenBrackets san)), r)
    | .error _ =>
      match r.fallback_redactor with
      | none => .error .attributeError
      | some fb =>
        let (out, md, fb') := redact fb text sid
        .ok ((out, .fallbackMeta md), { r with fallback_redactor := some fb' })
  else
    match r.fallback_redactor with
    | none => .error .attributeError
    | some fb =>
      let (out, md, fb') := redact fb text sid
      .ok ((out, .fallbackMeta md), { r with fallback_redactor := some fb' })

/-! ### Basic lemmas about the token machinery -/

theorem reverseLookup_insertA_of_none (smap : SMap) (tok value : Str)
    (h : reverseLookup smap value = none) :
    reverseLookup (insertA smap tok value) value = some tok := by
  induction smap with
  | nil => simp [insertA, reverseLookup]
  | cons p rest ih =>
    obtain ⟨t0, v0⟩ := p
    by_cases hv : v0 = value
    · simp [reverseLookup, hv] at h
    · simp only [reverseLookup, if_neg hv] at h
      by_cases hk : t0 = tok
      · simp [insertA, hk, reverseLookup]
      · simp [insertA, hk, reverseLookup, hv, ih h]

theorem alookup_clearSession_rm (st : RedactorState) (sid : String) :
    alookup (clearSession st sid).redaction_map sid = none := by
  unfold clearSession
  cases h : alookup st.redaction_map sid with
  | none => simp [h]
  | some m => simp [h, alookup_eraseA_self]

theorem alookup_clearSession_tc (st : RedactorState) (sid : String) :
    alookup (clearSession st sid).token_counters sid = none := by
  unfold clearSession
  cases h : alookup st.token_counters sid with
  | none => simp [h]
  | some m => simp [h, alookup_eraseA_self]

/-- Clearing a session with no recorded state is the identity. -/
theorem clearSession_of_none (st : RedactorState) (sid : String)
    (hrm : alookup st.redaction_map sid = none)
    (htc : alookup st.token_counters sid = none) :
    clearSession st sid = st := by
  unfold clearSession
  simp [hrm, htc]

/-- `get_redaction_stats` only reads the session's entry of `redaction_map`. -/
theorem getRedactionStats_congr (st st' : RedactorState) (sid : String)
    (h : alookup st.redaction_map sid = alookup st'.redaction_map sid) :
    getRedactionStats st sid = getRedactionStats st' sid := by
  unfold getRedactionStats
  rw [h]

/-! ### Claim theorems: token minting and session lifecycle -/

/-- C2.  Idempotent tokenization: re-requesting a token for the same
literal value (under any category) returns the very same token with the
session state unchanged — the reverse lookup over the session's current
mapping finds the existing token — and recording the call's metadata
entry for that token maps it to the value.  No duplicate token is minted
for an identical value within a session. -/
theorem claim_tokenization_idempotent (smap : SMap) (ctrs : Ctrs) (ty ty' v : Str)
    (md : Metadata) (label descr : Str) :
    getOrCreateToken (getOrCreateToken smap ctrs ty v).2.1
        (getOrCreateToken smap ctrs ty v).2.2 ty' v
      = getOrCreateToken smap ctrs ty v
    ∧ alookup (insertA md (getOrCreateToken smap ctrs ty v).1 (label, v, descr))
        (getOrCreateToken smap ctrs ty v).1 = some (label, v, descr) := by
  refine ⟨?_, alookup_insertA_self _ _ _⟩
  cases h : reverseLookup smap v with
  | some tok => simp [getOrCreateToken, h]
  | none => simp [getOrCreateToken, h, reverseLookup_insertA_of_none _ _ _ h]

/-- C4.  Counter monotonicity: when a value is new, the per-category
counter (starting at the default 0) is incremented exactly once before
minting and the minted token carries the new counter value as its
suffix, leaving every other category's counter unchanged; when the value
was already seen, the state — counters included — is unchanged. -/
theorem claim_counter_monotonic (smap : SMap) (ctrs : Ctrs) (ty v : Str) :
    (reverseLookup smap v = none →
      getOrCreateToken smap ctrs ty v =
        (ty ++ '_' :: Nat.toDigits 10 ((alookup ctrs ty).getD 0 + 1),
         insertA smap (ty ++ '_' :: Nat.toDigits 10 ((alookup ctrs ty).getD 0 + 1)) v,
         insertA ctrs ty ((alookup ctrs ty).getD 0 + 1))
      ∧ alookup (insertA ctrs ty ((alookup ctrs ty).getD 0 + 1)) ty
          = some ((alookup ctrs ty).getD 0 + 1)
      ∧ ∀ ty₂ : Str, ty₂ ≠ ty →
          alookup (insertA ctrs ty ((alookup ctrs ty).getD 0 + 1)) ty₂ = alookup ctrs ty₂)
    ∧ ∀ tok : Str, reverseLookup smap v = some tok →
        getOrCreateToken smap ctrs ty v = (tok, smap, ctrs) := by
  constructor
  · intro h
    refine ⟨by simp [getOrCreateToken, h], alookup_insertA_self _ _ _, ?_⟩
    intro ty₂ hne
    exact alookup_insertA_ne _ _ _ _ hne
  · intro tok h
    simp [getOrCreateToken, h]

/-- Witness for C4 at a concrete state: a fresh `EMAIL` category mints
`EMAIL_1` and stores the counter 1. -/
theorem claim_counter_monotonic_witness :
    getOrCreateToken [] [] "EMAIL".toList "a@b.co".toList
      = ("EMAIL_1".toList, [("EMAIL_1".toList, "a@b.co".toList)], [("EMAIL".toList, 1)]) := by
  have h := (claim_counter_monotonic [] [] "EMAIL".toList "a@b.co".toList).1 (by decide)
  rw [h.1]
  decide

/-- C10.  Cross-category token reuse: the reverse lookup in
`_get_or_create_token` ignores the requested category, so a value that
already has a token — under whatever category it was minted — is
returned unchanged, with no counter advanced, even when the requested
category differs from the token's label prefix. -/
theorem claim_cross_category_reuse (smap : SMap) (ctrs : Ctrs) (ty v tok : Str)
    (h : reverseLookup smap v = some tok) :
    getOrCreateToken smap ctrs ty v = (tok, smap, ctrs) := by
  simp [getOrCreateToken, h]

/-- Witness for C10: a value tokenized as `PERSON_1` is requested under
category `EMAIL` and still resolves to `PERSON_1`, with the `EMAIL`
counter not advanced. -/
theorem claim_cross_category_reuse_witness :
    getOrCreateToken [("PERSON_1".toList, "Srinivas".toList)] [("PERSON".toList, 1)]
        "EMAIL".toList "Srinivas".toList
      = ("PERSON_1".toList, [("PERSON_1".toList, "Srinivas".toList)], [("PERSON".toList, 1)]) :=
  claim_cross_category_reuse _ _ _ _ _ (by decide)

/-- C6.  Clear-then-query: after `clear_session(S)` the stats for `S` are
the zero structure, clearing again is a no-op (idempotence), and a
subsequent mint on the now-empty session state receives suffix 1 for
any category. -/
theorem claim_clear_then_query (st : RedactorState) (sid : String) (cat v : Str) :
    getRedactionStats (clearSession st sid) sid = ⟨0, []⟩
    ∧ clearSession (clearSession st sid) sid = clearSession st sid
    ∧ (getOrCreateToken [] [] cat v).1 = cat ++ ['_', '1'] := by
  refine ⟨?_, ?_, ?_⟩
  · unfold getRedactionStats
    rw [alookup_clearSession_rm]
  · exact clearSession_of_none _ _ (alookup_clearSession_rm st sid)
      (alookup_clearSession_tc st sid)
  · show (getOrCreateToken [] [] cat v).1 = cat ++ ['_', '1']
    simp only [getOrCreateToken, reverseLookup, alookup, Option.getD_none]
    have h1 : Nat.toDigits 10 (0 + 1) = ['1'] := by decide
    rw [h1]

/-- C7.  Empty input: `redact("", S)` returns `("", {})` with the state
untouched (in particular no session entry is lazily created), and
`restore("", S)` returns `""`. -/
theorem claim_empty_input (st : RedactorState) (sid : String) :
    redact st [] sid = ([], [], st) ∧ restore st [] sid = [] := by
  exact ⟨rfl, rfl⟩

/-- C8.  Unknown sessions never error: with no recorded state for `S`,
stats are the zero structure, the export is the empty structure,
`restore` returns any text unchanged, and `clear_session` is a no-op. -/
theorem claim_unknown_session_safe (st : RedactorState) (sid : String) (text : Str)
    (hrm : alookup st.redaction_map sid = none)
    (htc : alookup st.token_counters sid = none) :
    getRedactionStats st sid = ⟨0, []⟩
    ∧ exportRedactionMap st sid = none
    ∧ restore st text sid = text
    ∧ clearSession st sid = st := by
  refine ⟨?_, ?_, ?_, ?_⟩
  · unfold getRedactionStats
    rw [hrm]
  · unfold exportRedactionMap
    rw [hrm]
  · unfold restore
    by_cases ht : text = []
    · simp [ht]
    · simp [ht, hrm]
  · exact clearSession_of_none _ _ hrm htc

/-- Witness for C8 on a state that does hold other sessions' data. -/
theorem claim_unknown_session_safe_witness :
    getRedactionStats ⟨[("a", [("PERSON_1".toList, "Srinivas".toList)])],
        [("a", [("PERSON".toList, 1)])]⟩ "b" = ⟨0, []⟩
    ∧ exportRedactionMap ⟨[("a", [("PERSON_1".toList, "Srinivas".toList)])],
        [("a", [("PERSON".toList, 1)])]⟩ "b" = none
    ∧ restore ⟨[("a", [("PERSON_1".toList, "Srinivas".toList)])],
        [("a", [("PERSON".toList, 1)])]⟩ "hi [PERSON_1]".toList "b" = "hi [PERSON_1]".toList
    ∧ clearSession ⟨[("a", [("PERSON_1".toList, "Srinivas".toList)])],
        [("a", [("PERSON".toList, 1)])]⟩ "b"
      = ⟨[("a", [("PERSON_1".toList, "Srinivas".toList)])], [("a", [("PERSON".toList, 1)])]⟩ :=
  claim_unknown_session_safe _ _ _ (by decide) (by decide)

/-- One `redact` call against session A only rewrites session A's entries
of the two instance dicts. -/
theorem redact_preserves_other_sessions (st : RedactorState) (text : Str)
    (sidA sidB : String) (h : sidB ≠ sidA) :
    alookup (redact st text sidA).2.2.redaction_map sidB = alookup st.redaction_map sidB
    ∧ alookup (redact st text sidA).2.2.token_counters sidB = alookup st.token_counters sidB := by
  by_cases ht : text = []
  · subst ht
    exact ⟨rfl, rfl⟩
  · simp only [redact, redactFull, redactFullWith, if_neg ht]
    exact ⟨alookup_insertA_ne _ _ _ _ h, alookup_insertA_ne _ _ _ _ h⟩

/-- C5.  Session isolation: any sequence of `redact` calls against
session A leaves session B's token mapping and counters untouched, and
`get_redaction_stats(B)` is the same as if A's calls had not happened. -/
theorem claim_session_isolation (st : RedactorState) (texts : List Str)
    (sidA sidB : String) (h : sidB ≠ sidA) :
    alookup (redactMany st sidA texts).redaction_map sidB = alookup st.redaction_map sidB
    ∧ alookup (redactMany st sidA texts).token_counters sidB = alookup st.token_counters sidB
    ∧ getRedactionStats (redactMany st sidA texts) sidB = getRedactionStats st sidB := by
  induction texts generalizing st with
  | nil => exact ⟨rfl, rfl, rfl⟩
  | cons t ts ih =>
    have hone := redact_preserves_other_sessions st t sidA sidB h
    have hrest := ih (redact st t sidA).2.2
    refine ⟨hrest.1.trans hone.1, hrest.2.1.trans hone.2, ?_⟩
    exact getRedactionStats_congr _ _ _ (hrest.1.trans hone.1)

/-- Witness for C5: a run against session `"a"` leaves session `"b"`'s
view of a fresh redactor unchanged. -/
theorem claim_session_isolation_witness :
    ("b" : String) ≠ "a"
    ∧ (alookup (redactMany freshState "a" ["Srinivas is here".toList]).redaction_map "b"
         = alookup freshState.redaction_map "b"
       ∧ alookup (redactMany freshState "a" ["Srinivas is here".toList]).token_counters "b"
         = alookup freshState.token_counters "b"
       ∧ getRedactionStats (redactMany freshState "a" ["Srinivas is here".toList]) "b"
         = getRedactionStats freshState "b") :=
  ⟨by decide, claim_session_isolation freshState _ "a" "b" (by decide)⟩

/-- C3.  The advanced engine's degradation path is broken: constructed
with the statistical scanner available (`use_llm_guard=True` and LLM
Guard importable), a failing scan reaches the `except` handler, whose
`self.fallback_redactor` was never assigned in this configuration —
so the call raises `AttributeError` instead of returning the
pattern-based engine's result. -/
theorem claim_advanced_fallback_bug {ρ : Type} (scan : Str → Except String (Str × Bool × ρ))
    (text : Str) (sid : String) (e : String)
    (hscan : scan text = .error e) (htext : text ≠ []) :
    advRedact scan (advInit true true) text sid = .error .attributeError := by
  simp [advRedact, advInit, htext, hscan]

/-- Witness for C3: a concrete raising scanner on concrete text. -/
theorem claim_advanced_fallback_bug_witness :
    advRedact (fun _ => (Except.error "scan failed" : Except String (Str × Bool × Nat)))
      (advInit true true) "hello".toList "s" = .error .attributeError :=
  claim_advanced_fallback_bug _ _ "s" "scan failed" rfl (by decide)

/-- C9.  Concrete scenario: with "John" present in the known-value list,
redacting `"Contact John at john@example.com or 555-123-4567"` in a
fresh session produces a text containing `[PERSON_1]`, `[EMAIL_1]` and
`[PHONE_1]`, metadata mapping each token to the exact original
substring, and stats of 3 redactions broken down as one `PERSON`, one
`EMAIL` and one `PHONE`. -/
theorem claim_concrete_scenario :
    occurs "[PERSON_1]".toList
        (redactFullWith (KNOWN_NAMES ++ ["John".toList]) PII_PATTERNS freshState
          "Contact John at john@example.com or 555-123-4567".toList "s").1 = true
    ∧ occurs "[EMAIL_1]".toList
        (redactFullWith (KNOWN_NAMES ++ ["John".toList]) PII_PATTERNS freshState
          "Contact John at john@example.com or 555-123-4567".toList "s").1 = true
    ∧ occurs "[PHONE_1]".toList
        (redactFullWith (KNOWN_NAMES ++ ["John".toList]) PII_PATTERNS freshState
          "Contact John at john@example.com or 555-123-4567".toList "s").1 = true
    ∧ (redactFullWith (KNOWN_NAMES ++ ["John".toList]) PII_PATTERNS freshState
          "Contact John at john@example.com or 555-123-4567".toList "s").1
      = "Contact [PERSON_1] at [EMAIL_1] or [PHONE_1]".toList
    ∧ alookup (redactFullWith (KNOWN_NAMES ++ ["John".toList]) PII_PATTERNS freshState
          "Contact John at john@example.com or 555-123-4567".toList "s").2.1
        "PERSON_1".toList
      = some ("PERSON".toList, "John".toList, "Known person name".toList)
    ∧ alookup (redactFullWith (KNOWN_NAMES ++ ["John".toList]) PII_PATTERNS freshState
          "Contact John at john@example.com or 555-123-4567".toList "s").2.1
        "EMAIL_1".toList
      = some ("EMAIL".toList, "john@example.com".toList, "Email address".toList)
    ∧ alookup (redactFullWith (KNOWN_NAMES ++ ["John".toList]) PII_PATTERNS freshState
          "Contact John at john@example.com or 555-123-4567".toList "s").2.1
        "PHONE_1".toList
      = some ("PHONE".toList, "555-123-4567".toList, "Phone number".toList)
    ∧ getRedactionStats
        (redactFullWith (KNOWN_NAMES ++ ["John".toList]) PII_PATTERNS freshState
          "Contact John at john@example.com or 555-123-4567".toList "s").2.2.1 "s"
      = ⟨3, [("PERSON".toList, 1), ("EMAIL".toList, 1), ("PHONE".toList, 1)]⟩ := by
  decide

/-! ### String algebra for the round-trip theorem (C1)

Self-contained facts about `List.isPrefixOf`, `occurs`, `pyReplace`,
`splitAll` and `interc`, culminating in the key distribution lemma:
`pyReplace` maps over a concatenation whenever no occurrence of the
pattern straddles the seam. -/

theorem isPre_nil {pat : Str} (h : pat.isPrefixOf ([] : Str) = true) : pat = [] := by
  cases pat with
  | nil => rfl
  | cons c t => simp [List.isPrefixOf] at h

theorem isPre_append_self (v r : Str) : v.isPrefixOf (v ++ r) = true := by
  induction v with
  | nil => simp [List.isPrefixOf]
  | cons c t ih => simp [List.isPrefixOf, ih]

theorem exists_of_isPre {v s : Str} (h : v.isPrefixOf s = true) : ∃ r, s = v ++ r := by
  induction v generalizing s with
  | nil => exact ⟨s, rfl⟩
  | cons c t ih =>
    cases s with
    | nil => simp [List.isPrefixOf] at h
    | cons b bs =>
      simp only [List.isPrefixOf, Bool.and_eq_true, beq_iff_eq] at h
      obtain ⟨r, hr⟩ := ih h.2
      exact ⟨r, by rw [h.1, List.cons_append, ← hr]⟩

theorem length_le_of_isPre {v s : Str} (h : v.isPrefixOf s = true) : v.length ≤ s.length := by
  obtain ⟨r, hr⟩ := exists_of_isPre h
  subst hr
  simp

theorem isPre_of_append_left {v A : Str} (B : Str) (h : v.isPrefixOf A = true) :
    v.isPrefixOf (A ++ B) = true := by
  obtain ⟨r, hr⟩ := exists_of_isPre h
  subst hr
  rw [List.append_assoc]
  exact isPre_append_self _ _

theorem isPre_append_of_length_le {v A B : Str} (h : v.isPrefixOf (A ++ B) = true)
    (hl : v.length ≤ A.length) : v.isPrefixOf A = true := by
  induction v generalizing A with
  | nil => simp [List.isPrefixOf]
  | cons c t ih =>
    cases A with
    | nil => simp at hl
    | cons a as =>
      simp only [List.cons_append, List.isPrefixOf, Bool.and_eq_true, beq_iff_eq] at h ⊢
      exact ⟨h.1, ih h.2 (Nat.le_of_succ_le_succ hl)⟩

theorem drop_append_le {n : Nat} : ∀ A B : Str, n ≤ A.length →
    (A ++ B).drop n = A.drop n ++ B := by
  intro A B h
  rw [List.drop_append_eq_append_drop, Nat.sub_eq_zero_of_le h, List.drop_zero]

/-! Occurrence decomposition. -/

theorem occurs_iff {pat hay : Str} : occurs pat hay = true ↔ ∃ x y, hay = x ++ pat ++ y := by
  induction hay with
  | nil =>
    simp only [occurs]
    constructor
    · intro h
      exact ⟨[], [], by simp [isPre_nil h]⟩
    · rintro ⟨x, y, hxy⟩
      have h0 : x ++ (pat ++ y) = [] := by rw [← List.append_assoc, ← hxy]
      have hp : pat = [] := (List.append_eq_nil.1 (List.append_eq_nil.1 h0).2).1
      simp [hp, List.isPrefixOf]
  | cons c t ih =>
    simp only [occurs, Bool.or_eq_true]
    constructor
    · rintro (h | h)
      · obtain ⟨r, hr⟩ := exists_of_isPre h
        exact ⟨[], r, by simp [hr]⟩
      · obtain ⟨x, y, hxy⟩ := ih.1 h
        exact ⟨c :: x, y, by simp [hxy]⟩
    · rintro ⟨x, y, hxy⟩
      cases x with
      | nil =>
        left
        simp only [List.nil_append] at hxy
        rw [hxy]
        exact isPre_append_self _ _
      | cons b bs =>
        right
        simp only [List.cons_append, List.cons.injEq] at hxy
        exact ih.2 ⟨bs, y, hxy.2⟩

theorem occurs_chars {pat hay : Str} (h : occurs pat hay = true) {c : Char} (hc : c ∈ pat) :
    c ∈ hay := by
  obtain ⟨x, y, hxy⟩ := occurs_iff.1 h
  subst hxy
  simp [hc]

theorem occurs_of_isPre {pat hay : Str} (h : pat.isPrefixOf hay = true) :
    occurs pat hay = true := by
  cases hay with
  | nil => simp [occurs, h]
  | cons c t => simp [occurs, h]

theorem occurs_empty (hay : Str) : occurs [] hay = true := by
  cases hay <;> simp [occurs, List.isPrefixOf]

theorem ne_nil_of_not_occurs {pat hay : Str} (h : occurs pat hay = false) : pat ≠ [] := by
  intro hp
  rw [hp, occurs_empty] at h
  cases h

/-! Unfolding equations for `pyReplace` and `splitAll` (their fuelled
definitions compute with any sufficient fuel). -/

theorem pyReplaceF_irrel (pat rep : Str) (hp : pat ≠ []) :
    ∀ f g hay : _, hay.length ≤ f → hay.length ≤ g →
      pyReplaceF pat rep f hay = pyReplaceF pat rep g hay := by
  intro f
  induction f with
  | zero =>
    intro g hay hf _
    have : hay = [] := List.eq_nil_of_length_eq_zero (Nat.le_zero.1 hf)
    subst this
    cases g with
    | zero => rfl
    | succ g =>
      simp only [pyReplaceF]
      rw [if_neg]
      intro hpre
      exact hp (isPre_nil hpre)
  | succ f ih =>
    intro g hay hf hg
    cases g with
    | zero =>
      have : hay = [] := List.eq_nil_of_length_eq_zero (Nat.le_zero.1 hg)
      subst this
      simp only [pyReplaceF]
      rw [if_neg]
      intro hpre
      exact hp (isPre_nil hpre)
    | succ g =>
      simp only [pyReplaceF]
      by_cases hpre : pat.isPrefixOf hay = true
      · rw [if_pos hpre, if_pos hpre]
        have hlen : (hay.drop pat.length).length ≤ f ∧ (hay.drop pat.length).length ≤ g := by
          have h1 : 1 ≤ pat.length := by
            cases pat with
            | nil => exact absurd rfl hp
            | cons c t => simp
          have h2 : 1 ≤ hay.length := Nat.le_trans h1 (length_le_of_isPre hpre)
          constructor
          · simp only [List.length_drop]
            omega
          · simp only [List.length_drop]
            omega
        rw [ih g _ hlen.1 hlen.2]
      · rw [if_neg hpre, if_neg hpre]
        cases hay with
        | nil => rfl
        | cons c t =>
          simp only [List.length_cons] at hf hg
          show c :: pyReplaceF pat rep f t = c :: pyReplaceF pat rep g t
          rw [ih g t (Nat.le_of_succ_le_succ hf) (Nat.le_of_succ_le_succ hg)]

theorem pyReplace_nil {pat : Str} (rep : Str) (hp : pat ≠ []) : pyReplace [] pat rep = [] := by
  simp only [pyReplace, List.isEmpty_eq_true]
  rw [if_neg hp]
  rfl

theorem pyReplace_eq_pos {hay pat : Str} (rep : Str) (hp : pat ≠ [])
    (hpre : pat.isPrefixOf hay = true) :
    pyReplace hay pat rep = rep ++ pyReplace (hay.drop pat.length) pat rep := by
  have hpe : pat.isEmpty = false := by
    cases pat with
    | nil => exact absurd rfl hp
    | cons c t => rfl
  simp only [pyReplace, hpe, Bool.false_eq_true, if_false]
  have hstep : pyReplaceF pat rep hay.length hay
      = pyReplaceF pat rep (hay.length + 1) hay :=
    pyReplaceF_irrel pat rep hp _ _ hay (Nat.le_refl _) (Nat.le_succ _)
  rw [hstep]
  simp only [pyReplaceF, if_pos hpre]
  congr 1
  have h1 : 1 ≤ pat.length := by
    cases pat with
    | nil => exact absurd rfl hp
    | cons c t => simp
  apply pyReplaceF_irrel pat rep hp
  · simp only [List.length_drop]
    omega
  · exact Nat.le_refl _

theorem pyReplace_eq_neg {c : Char} {t pat : Str} (rep : Str) (hp : pat ≠ [])
    (hpre : pat.isPrefixOf (c :: t) = false) :
    pyReplace (c :: t) pat rep = c :: pyReplace t pat rep := by
  have hpe : pat.isEmpty = false := by
    cases pat with
    | nil => exact absurd rfl hp
    | cons c' t' => rfl
  simp only [pyReplace, hpe, Bool.false_eq_true, if_false]
  have hstep : pyReplaceF pat rep (c :: t).length (c :: t)
      = pyReplaceF pat rep (t.length + 1) (c :: t) := by
    simp
  rw [hstep]
  simp only [pyReplaceF, hpre, Bool.false_eq_true, if_false]

theorem splitAllF_irrel (pat : Str) (hp : pat ≠ []) :
    ∀ f g hay : _, hay.length ≤ f → hay.length ≤ g →
      splitAllF pat f hay = splitAllF pat g hay := by
  intro f
  induction f with
  | zero =>
    intro g hay hf _
    have : hay = [] := List.eq_nil_of_length_eq_zero (Nat.le_zero.1 hf)
    subst this
    cases g with
    | zero => rfl
    | succ g =>
      simp only [splitAllF]
      rw [if_neg]
      intro hpre
      exact hp (isPre_nil hpre)
  | succ f ih =>
    intro g hay hf hg
    cases g with
    | zero =>
      have : hay = [] := List.eq_nil_of_length_eq_zero (Nat.le_zero.1 hg)
      subst this
      simp only [splitAllF]
      rw [if_neg]
      intro hpre
      exact hp (isPre_nil hpre)
    | succ g =>
      simp only [splitAllF]
      by_cases hpre : pat.isPrefixOf hay = true
      · rw [if_pos hpre, if_pos hpre]
        have h1 : 1 ≤ pat.length := by
          cases pat with
          | nil => exact absurd rfl hp
          | cons c t => simp
        have h2 : 1 ≤ hay.length := Nat.le_trans h1 (length_le_of_isPre hpre)
        rw [ih g _ (by simp only [List.length_drop]; omega)
          (by simp only [List.length_drop]; omega)]
      · rw [if_neg hpre, if_neg hpre]
        cases hay with
        | nil => rfl
        | cons c t =>
          simp only [List.length_cons] at hf hg
          show consHead c (splitAllF pat f t) = consHead c (splitAllF pat g t)
          rw [ih g t (Nat.le_of_succ_le_succ hf) (Nat.le_of_succ_le_succ hg)]

theorem splitAll_nil {pat : Str} : splitAll [] pat = [[]] := by
  simp only [splitAll, List.length_nil]
  rfl

theorem splitAll_eq_pos {hay pat : Str} (hp : pat ≠ [])
    (hpre : pat.isPrefixOf hay = true) :
    splitAll hay pat = [] :: splitAll (hay.drop pat.length) pat := by
  have hstep : splitAll hay pat = splitAllF pat (hay.length + 1) hay :=
    splitAllF_irrel pat hp _ _ hay (Nat.le_refl _) (Nat.le_succ _)
  rw [hstep]
  simp only [splitAllF, if_pos hpre]
  congr 1
  have h1 : 1 ≤ pat.length := by
    cases pat with
    | nil => exact absurd rfl hp
    | cons c t => simp
  apply splitAllF_irrel pat hp
  · simp only [List.length_drop]
    omega
  · exact Nat.le_refl _

theorem splitAll_eq_neg {c : Char} {t pat : Str}
    (hpre : pat.isPrefixOf (c :: t) = false) :
    splitAll (c :: t) pat = consHead c (splitAll t pat) := by
  have hstep : splitAll (c :: t) pat = splitAllF pat (t.length + 1) (c :: t) := by
    simp [splitAll]
  rw [hstep]
  simp only [splitAllF, hpre, Bool.false_eq_true, if_false]
  show consHead c (splitAllF pat t.length t) = _
  simp only [splitAll]

theorem splitAll_ne_nil {hay pat : Str} (hp : pat ≠ []) : splitAll hay pat ≠ [] := by
  by_cases hpre : pat.isPrefixOf hay = true
  · rw [splitAll_eq_pos hp hpre]
    simp
  · cases hay with
    | nil =>
      rw [splitAll_nil]
      simp
    | cons c t =>
      rw [splitAll_eq_neg (Bool.eq_false_iff.2 hpre)]
      cases splitAll t pat <;> simp [consHead]

theorem interc_cons_of_ne_nil (sep q : Str) {ps : List Str} (h : ps ≠ []) :
    interc sep (q :: ps) = q ++ sep ++ interc sep ps := by
  cases ps with
  | nil => exact absurd rfl h
  | cons p ps' => rfl

theorem interc_consHead (sep : Str) (c : Char) (ps : List Str) :
    interc sep (consHead c ps) = c :: interc sep ps := by
  cases ps with
  | nil => rfl
  | cons p ps' =>
    cases ps' with
    | nil => rfl
    | cons q qs => simp [consHead, interc]

/-- Python's `sep.join(hay.split(sep)) == hay`. -/
theorem interc_splitAll {pat : Str} (hp : pat ≠ []) :
    ∀ n (hay : Str), hay.length ≤ n → interc pat (splitAll hay pat) = hay := by
  intro n
  induction n with
  | zero =>
    intro hay hlen
    have : hay = [] := List.eq_nil_of_length_eq_zero (Nat.le_zero.1 hlen)
    subst this
    rw [splitAll_nil]
    rfl
  | succ n ih =>
    intro hay hlen
    by_cases hpre : pat.isPrefixOf hay = true
    · rw [splitAll_eq_pos hp hpre,
        interc_cons_of_ne_nil pat [] (splitAll_ne_nil hp), List.nil_append]
      obtain ⟨r, hr⟩ := exists_of_isPre hpre
      have hd : hay.drop pat.length = r := by rw [hr, List.drop_left]
      rw [hd, ih r ?_, ← hr]
      have h1 : 1 ≤ pat.length := by
        cases pat with
        | nil => exact absurd rfl hp
        | cons c t => simp
      have : hay.length = pat.length + r.length := by rw [hr]; simp
      omega
    · cases hay with
      | nil =>
        rw [splitAll_nil]
        rfl
      | cons c t =>
        rw [splitAll_eq_neg (Bool.eq_false_iff.2 hpre), interc_consHead,
          ih t (by simpa using Nat.le_of_succ_le_succ hlen)]

/-- Python's `hay.replace(pat, rep) == rep.join(hay.split(pat))`. -/
theorem pyReplace_eq_interc {pat : Str} (rep : Str) (hp : pat ≠ []) :
    ∀ n (hay : Str), hay.length ≤ n → pyReplace hay pat rep = interc rep (splitAll hay pat) := by
  intro n
  induction n with
  | zero =>
    intro hay hlen
    have : hay = [] := List.eq_nil_of_length_eq_zero (Nat.le_zero.1 hlen)
    subst this
    rw [splitAll_nil, pyReplace_nil rep hp]
    rfl
  | succ n ih =>
    intro hay hlen
    by_cases hpre : pat.isPrefixOf hay = true
    · rw [splitAll_eq_pos hp hpre, pyReplace_eq_pos rep hp hpre,
        interc_cons_of_ne_nil rep [] (splitAll_ne_nil hp), List.nil_append]
      have h1 : 1 ≤ pat.length := by
        cases pat with
        | nil => exact absurd rfl hp
        | cons c t => simp
      have h2 : 1 ≤ hay.length := Nat.le_trans h1 (length_le_of_isPre hpre)
      rw [ih (hay.drop pat.length) (by simp only [List.length_drop]; omega)]
    · cases hay with
      | nil =>
        rw [splitAll_nil, pyReplace_nil rep hp]
        rfl
      | cons c t =>
        rw [splitAll_eq_neg (Bool.eq_false_iff.2 hpre),
          pyReplace_eq_neg rep hp (Bool.eq_false_iff.2 hpre), interc_consHead,
          ih t (by simpa using Nat.le_of_succ_le_succ hlen)]

/-- Every character of every split segment comes from the split text. -/
theorem splitAll_chars {pat : Str} (hp : pat ≠ []) :
    ∀ n (hay : Str), hay.length ≤ n →
      ∀ p ∈ splitAll hay pat, ∀ c ∈ p, c ∈ hay := by
  intro n
  induction n with
  | zero =>
    intro hay hlen p hpmem c hcmem
    have : hay = [] := List.eq_nil_of_length_eq_zero (Nat.le_zero.1 hlen)
    subst this
    rw [splitAll_nil] at hpmem
    simp at hpmem
    subst hpmem
    simp at hcmem
  | succ n ih =>
    intro hay hlen p hpmem c hcmem
    by_cases hpre : pat.isPrefixOf hay = true
    · rw [splitAll_eq_pos hp hpre] at hpmem
      rcases List.mem_cons.1 hpmem with h | h
      · subst h
        simp at hcmem
      · have h1 : 1 ≤ pat.length := by
          cases pat with
          | nil => exact absurd rfl hp
          | cons c t => simp
        have h2 : 1 ≤ hay.length := Nat.le_trans h1 (length_le_of_isPre hpre)
        have := ih (hay.drop pat.length) (by simp only [List.length_drop]; omega) p h c hcmem
        exact List.mem_of_mem_drop this
    · cases hay with
      | nil =>
        rw [splitAll_nil] at hpmem
        simp at hpmem
        subst hpmem
        simp at hcmem
      | cons b t =>
        rw [splitAll_eq_neg (Bool.eq_false_iff.2 hpre)] at hpmem
        cases hsp : splitAll t pat with
        | nil => exact absurd hsp (splitAll_ne_nil hp)
        | cons q qs =>
          rw [hsp] at hpmem
          simp only [consHead, List.mem_cons] at hpmem
          rcases hpmem with h | h
          · subst h
            rcases List.mem_cons.1 hcmem with h | h
            · simp [h]
            · have := ih t (by simpa using Nat.le_of_succ_le_succ hlen) q
                (by rw [hsp]; exact List.mem_cons_self _ _) c h
              exact List.mem_cons_of_mem _ this
          · have := ih t (by simpa using Nat.le_of_succ_le_succ hlen) p
              (by rw [hsp]; exact List.mem_cons_of_mem _ h) c hcmem
            exact List.mem_cons_of_mem _ this

/-- `replace` is the identity when the pattern does not occur. -/
theorem pyReplace_no_occ {pat : Str} (rep : Str) :
    ∀ hay : Str, occurs pat hay = false → pyReplace hay pat rep = hay := by
  intro hay
  induction hay with
  | nil =>
    intro h
    exact pyReplace_nil rep (ne_nil_of_not_occurs h)
  | cons c t ih =>
    intro h
    have hp : pat ≠ [] := ne_nil_of_not_occurs h
    simp only [occurs, Bool.or_eq_false_iff] at h
    rw [pyReplace_eq_neg rep hp h.1, ih h.2]

/-- Replacing the whole pattern string itself. -/
theorem pyReplace_self {pat : Str} (rep : Str) (hp : pat ≠ []) :
    pyReplace pat pat rep = rep := by
  have hpre : pat.isPrefixOf pat = true := by
    have h := isPre_append_self pat []
    rwa [List.append_nil] at h
  rw [pyReplace_eq_pos rep hp hpre, List.drop_length, pyReplace_nil rep hp, List.append_nil]

/-- The key distribution lemma: `replace` maps over a concatenation when
no occurrence of the pattern straddles the seam (expressed as: every
nonempty suffix of `A` that the pattern extends past must be at least as
long as the pattern). -/
theorem pyReplace_append_split {v : Str} (w : Str) (hv : v ≠ []) :
    ∀ n (A B : Str), A.length ≤ n →
    (∀ A₁ A₂ : Str, A = A₁ ++ A₂ → A₂ ≠ [] → v.isPrefixOf (A₂ ++ B) = true →
      v.length ≤ A₂.length) →
    pyReplace (A ++ B) v w = pyReplace A v w ++ pyReplace B v w := by
  intro n
  induction n with
  | zero =>
    intro A B hlen _
    have : A = [] := List.eq_nil_of_length_eq_zero (Nat.le_zero.1 hlen)
    subst this
    rw [pyReplace_nil w hv, List.nil_append, List.nil_append]
  | succ n ih =>
    intro A B hlen hcross
    cases A with
    | nil => rw [pyReplace_nil w hv, List.nil_append, List.nil_append]
    | cons a A' =>
      by_cases hpre : v.isPrefixOf ((a :: A') ++ B) = true
      · have hvlen : v.length ≤ (a :: A').length :=
          hcross [] (a :: A') rfl (by simp) hpre
        have hpreA : v.isPrefixOf (a :: A') = true :=
          isPre_append_of_length_le hpre hvlen
        rw [pyReplace_eq_pos w hv hpre, pyReplace_eq_pos w hv hpreA,
          drop_append_le _ _ hvlen, List.append_assoc]
        congr 1
        have h1 : 1 ≤ v.length := by
          cases v with
          | nil => exact absurd rfl hv
          | cons c t => simp
        refine ih ((a :: A').drop v.length) B ?_ ?_
        · simp only [List.length_drop, List.length_cons]
          simp only [List.length_cons] at hlen
          omega
        · intro A₁ A₂ hsplit hne hpre2
          refine hcross ((a :: A').take v.length ++ A₁) A₂ ?_ hne hpre2
          rw [List.append_assoc, ← hsplit, List.take_append_drop]
      · have hpreA : v.isPrefixOf (a :: A') = false := by
          cases h : v.isPrefixOf (a :: A') with
          | false => rfl
          | true => exact absurd (isPre_of_append_left B h) hpre
        have hpreAB : v.isPrefixOf (a :: (A' ++ B)) = false := by
          cases h : v.isPrefixOf (a :: (A' ++ B)) with
          | false => rfl
          | true => exact absurd (show v.isPrefixOf ((a :: A') ++ B) = true from h) hpre
        rw [List.cons_append, pyReplace_eq_neg w hv hpreAB,
          pyReplace_eq_neg w hv hpreA, List.cons_append]
        congr 1
        refine ih A' B (by simpa using Nat.le_of_succ_le_succ hlen) ?_
        intro A₁ A₂ hsplit hne hpre2
        exact hcross (a :: A₁) A₂ (by rw [hsplit]; rfl) hne hpre2

/-! ### Fragment representation of partially redacted text

A partially redacted text is a list of fragments: bracket-free literal
segments and inserted tokens.  A token fragment remembers both the token
name and the original value it replaced, so the original text is the
`decF` flattening while the visible working text is the `encode`
flattening. -/

inductive Frag : Type where
  | lit (s : Str) : Frag
  | tk (t v : Str) : Frag
deriving DecidableEq

def enc1 : Frag → Str
  | .lit s => s
  | .tk t _ => '[' :: t ++ [']']

def encode : List Frag → Str
  | [] => []
  | f :: fs => enc1 f ++ encode fs

def dec1 : Frag → Str
  | .lit s => s
  | .tk _ v => v

def decF : List Frag → Str
  | [] => []
  | f :: fs => dec1 f ++ decF fs

def fragTokens : List Frag → List Str
  | [] => []
  | .lit _ :: fs => fragTokens fs
  | .tk t _ :: fs => t :: fragTokens fs

/-- One forward redaction step on a single fragment: split each literal
at the occurrences of `v`, interleaving the token; leave tokens alone. -/
def stepF1 (v t : Str) : Frag → List Frag
  | .lit s => List.intersperse (Frag.tk t v) ((splitAll s v).map Frag.lit)
  | .tk t' v' => [.tk t' v']

def stepFL (v t : Str) : List Frag → List Frag
  | [] => []
  | f :: fs => stepF1 v t f ++ stepFL v t fs

/-- One restore step: fragments holding token `t` become the literal
value `v`. -/
def stepR (t v : Str) (frags : List Frag) : List Frag :=
  frags.map fun f =>
    match f with
    | .tk t' _ => if t' = t then .lit v else f
    | .lit s => .lit s

/-- The text after a chronological list of `(value, token)` replacements. -/
def applyOps (T : Str) (ops : List (Str × Str)) : Str :=
  ops.foldl (fun tx o => pyReplace tx o.1 ('[' :: o.2 ++ [']'])) T

def stepOps (frags : List Frag) (ops : List (Str × Str)) : List Frag :=
  ops.foldl (fun fs o => stepFL o.1 o.2 fs) frags

/-- The loop body of `restore`, as a function of the session map. -/
def restoreFold (mp : SMap) (txt : Str) : Str :=
  mp.foldl (fun tx e => pyReplace tx ('[' :: e.1 ++ [']']) e.2) txt

def stepRs (frags : List Frag) (mp : SMap) : List Frag :=
  mp.foldl (fun fs e => stepR e.1 e.2 fs) frags

/-- No fragment that starts the list is a literal. -/
def headNotLit : List Frag → Prop
  | .lit _ :: _ => False
  | _ => True

/-- No two adjacent literal fragments (so seams between fragments are
always guarded by a bracket on at least one side). -/
def AltP : List Frag → Prop
  | [] => True
  | .lit _ :: fs => headNotLit fs ∧ AltP fs
  | .tk _ _ :: fs => AltP fs

/-- The list ends with a literal fragment. -/
def endsLit : List Frag → Prop
  | [] => False
  | [.lit _] => True
  | [.tk _ _] => False
  | _ :: fs => endsLit fs

def LitsOK (frags : List Frag) : Prop :=
  ∀ s : Str, Frag.lit s ∈ frags → bracketFree s = true

def ToksOK (mp : SMap) (frags : List Frag) : Prop :=
  ∀ t v : Str, Frag.tk t v ∈ frags → alookup mp t = some v

theorem encode_append (xs ys : List Frag) :
    encode (xs ++ ys) = encode xs ++ encode ys := by
  induction xs with
  | nil => rfl
  | cons f fs ih => simp [encode, ih]

theorem decF_append (xs ys : List Frag) :
    decF (xs ++ ys) = decF xs ++ decF ys := by
  induction xs with
  | nil => rfl
  | cons f fs ih => simp [decF, ih]

theorem mem_of_fragTokens {frags : List Frag} {t : Str} (h : t ∈ fragTokens frags) :
    ∃ v, Frag.tk t v ∈ frags := by
  induction frags with
  | nil => simp [fragTokens] at h
  | cons f fs ih =>
    cases f with
    | lit s =>
      simp only [fragTokens] at h
      obtain ⟨v, hv⟩ := ih h
      exact ⟨v, List.mem_cons_of_mem _ hv⟩
    | tk t' v' =>
      simp only [fragTokens, List.mem_cons] at h
      rcases h with h | h
      · exact ⟨v', by rw [h]; exact List.mem_cons_self _ _⟩
      · obtain ⟨v, hv⟩ := ih h
        exact ⟨v, List.mem_cons_of_mem _ hv⟩

theorem decF_eq_encode_of_no_tk {frags : List Frag}
    (h : ∀ t v : Str, Frag.tk t v ∉ frags) : encode frags = decF frags := by
  induction frags with
  | nil => rfl
  | cons f fs ih =>
    cases f with
    | lit s =>
      simp only [encode, decF, enc1, dec1]
      rw [ih fun t v hin => h t v (List.mem_cons_of_mem _ hin)]
    | tk t v => exact absurd (List.mem_cons_self _ _) (h t v)

theorem encode_nil_decF {frags : List Frag} (h : encode frags = []) : decF frags = [] := by
  induction frags with
  | nil => rfl
  | cons f fs ih =>
    cases f with
    | lit s =>
      simp only [encode, List.append_eq_nil, enc1] at h
      simp only [decF, dec1, h.1, List.nil_append]
      exact ih h.2
    | tk t v => simp [encode, enc1] at h

/-- Two bracket-free strings followed by a closing bracket: the closing
bracket pins down the seam. -/
theorem closeBr_eq : ∀ {t t' : Str}, bracketFree t = true → bracketFree t' = true →
    ∀ {xs ys : Str}, t ++ ']' :: xs = t' ++ ']' :: ys → t = t' ∧ xs = ys := by
  intro t
  induction t with
  | nil =>
    intro t' _ ht' xs ys h
    cases t' with
    | nil => simpa using h
    | cons c' t'' =>
      simp only [List.nil_append, List.cons_append, List.cons.injEq] at h
      have hc : c' ≠ ']' := by
        simp only [bracketFree, List.all_cons, Bool.and_eq_true, decide_eq_true_eq] at ht'
        exact ht'.1.2
      exact absurd h.1.symm hc
  | cons c t'' ih =>
    intro t' ht ht' xs ys h
    cases t' with
    | nil =>
      simp only [List.nil_append, List.cons_append, List.cons.injEq] at h
      have hc : c ≠ ']' := by
        simp only [bracketFree, List.all_cons, Bool.and_eq_true, decide_eq_true_eq] at ht
        exact ht.1.2
      exact absurd h.1 hc
    | cons c' t''' =>
      simp only [List.cons_append, List.cons.injEq] at h
      have htt : bracketFree t'' = true := by
        simp only [bracketFree, List.all_cons, Bool.and_eq_true] at ht
        exact ht.2
      have htt' : bracketFree t''' = true := by
        simp only [bracketFree, List.all_cons, Bool.and_eq_true] at ht'
        exact ht'.2
      obtain ⟨h1, h2⟩ := ih htt htt' h.2
      exact ⟨by rw [h.1, h1], h2⟩

theorem bracketFree_not_mem {s : Str} (h : bracketFree s = true) :
    '[' ∉ s ∧ ']' ∉ s := by
  simp only [bracketFree, List.all_eq_true, Bool.and_eq_true, decide_eq_true_eq] at h
  constructor
  · intro hc
    exact (h _ hc).1 rfl
  · intro hc
    exact (h _ hc).2 rfl

/-- A bracketed token cannot occur inside a bracket-free string. -/
theorem occ_token_in_lit {t s : Str} (hs : bracketFree s = true) :
    occurs ('[' :: t ++ [']']) s = false := by
  cases h : occurs ('[' :: t ++ [']']) s with
  | false => rfl
  | true =>
    have := occurs_chars h (List.mem_cons_self '[' _)
    exact absurd this (bracketFree_not_mem hs).1

/-- A bracketed token can occur inside another only when they are equal. -/
theorem occ_token_in_token {t t' : Str} (ht : bracketFree t = true)
    (ht' : bracketFree t' = true) (hne : t ≠ t') :
    occurs ('[' :: t ++ [']']) ('[' :: t' ++ [']']) = false := by
  cases h : occurs ('[' :: t ++ [']']) ('[' :: t' ++ [']']) with
  | false => rfl
  | true =>
    exfalso
    obtain ⟨x, y, hxy⟩ := occurs_iff.1 h
    cases x with
    | nil =>
      simp only [List.nil_append, List.cons_append, List.cons.injEq] at hxy
      have h2 := hxy.2
      rw [List.append_assoc] at h2
      have h2' : t' ++ ']' :: ([] : Str) = t ++ ']' :: y := by simpa using h2
      obtain ⟨he, _⟩ := closeBr_eq ht' ht h2'
      exact hne he.symm
    | cons c x' =>
      simp only [List.cons_append, List.cons.injEq] at hxy
      have : '[' ∈ t' ++ [']'] := by
        rw [hxy.2]
        simp
      rcases List.mem_append.1 this with hmem | hmem
      · exact (bracketFree_not_mem ht').1 hmem
      · simp at hmem

/-! Seam conditions for the distribution lemma, in the two forms used:
the left side ends with a character the pattern avoids, or the right
side starts with one. -/

theorem cross_of_last {A B v : Str} {c : Char} (hlast : A.getLast? = some c)
    (hcv : c ∉ v) :
    ∀ A₁ A₂ : Str, A = A₁ ++ A₂ → A₂ ≠ [] → v.isPrefixOf (A₂ ++ B) = true →
      v.length ≤ A₂.length := by
  intro A₁ A₂ hsplit hne hpre
  by_contra hgt
  push_neg at hgt
  obtain ⟨r, hr⟩ := exists_of_isPre hpre
  have htake : A₂ = v.take A₂.length :=
    calc A₂ = (A₂ ++ B).take A₂.length := (List.take_left A₂ B).symm
    _ = (v ++ r).take A₂.length := by rw [hr]
    _ = v.take A₂.length := List.take_append_of_le_length (Nat.le_of_lt hgt)
  have hmemA : c ∈ A₂ := by
    have hA : A.getLast? = A₂.getLast? := by
      rw [hsplit]
      exact List.getLast?_append_of_ne_nil A₁ hne
    have : A₂.getLast? = some c := by rw [← hA, hlast]
    cases A₂ with
    | nil => exact absurd rfl hne
    | cons b bs =>
      rw [List.getLast?_eq_getLast _ (by simp)] at this
      have hc' : (b :: bs).getLast (by simp) = c := by
        injection this
      rw [← hc']
      exact List.getLast_mem _
  have : c ∈ v := List.mem_of_mem_take (htake ▸ hmemA)
  exact hcv this

theorem cross_of_head {A B v : Str}
    (hB : B = [] ∨ ∃ (d : Char) (B' : Str), B = d :: B' ∧ d ∉ v) :
    ∀ A₁ A₂ : Str, A = A₁ ++ A₂ → A₂ ≠ [] → v.isPrefixOf (A₂ ++ B) = true →
      v.length ≤ A₂.length := by
  intro A₁ A₂ _ _ hpre
  by_contra hgt
  push_neg at hgt
  obtain ⟨r, hr⟩ := exists_of_isPre hpre
  have htake : A₂ = v.take A₂.length :=
    calc A₂ = (A₂ ++ B).take A₂.length := (List.take_left A₂ B).symm
    _ = (v ++ r).take A₂.length := by rw [hr]
    _ = v.take A₂.length := List.take_append_of_le_length (Nat.le_of_lt hgt)
  have hBr : B = v.drop A₂.length ++ r := by
    have h3 : v.take A₂.length ++ B = v.take A₂.length ++ (v.drop A₂.length ++ r) := by
      rw [← List.append_assoc, List.take_append_drop, ← htake]
      exact hr
    exact List.append_cancel_left h3
  rcases hB with hB0 | ⟨d, B', hBd, hdv⟩
  · have hlen : v.length ≤ A₂.length := by
      have := congrArg List.length hr
      simp only [List.length_append] at this
      rw [hB0] at this
      simp at this
      omega
    exact absurd hlen (Nat.not_le.2 hgt)
  · have hvd : v.drop A₂.length ≠ [] := by
      intro h0
      have := congrArg List.length h0
      simp only [List.length_drop, List.length_nil] at this
      omega
    cases hvdrop : v.drop A₂.length with
    | nil => exact hvd hvdrop
    | cons e es =>
      have : d = e := by
        rw [hBd, hvdrop] at hBr
        injection hBr
      have hev : e ∈ v := by
        have : e ∈ v.drop A₂.length := by rw [hvdrop]; exact List.mem_cons_self _ _
        exact List.mem_of_mem_drop this
      rw [this] at hdv
      exact hdv hev

/-! ### The forward simulation: one redaction step on fragments -/

theorem encode_intersperse (t v : Str) : ∀ ps : List Str,
    encode (List.intersperse (Frag.tk t v) (ps.map Frag.lit)) = interc ('[' :: t ++ [']']) ps := by
  intro ps
  induction ps with
  | nil => rfl
  | cons p qs ih =>
    cases qs with
    | nil => simp [encode, enc1, interc, List.intersperse]
    | cons q qs' =>
      simp only [List.map_cons, List.intersperse, encode, enc1] at ih ⊢
      rw [ih, interc_cons_of_ne_nil _ p (by simp)]
      simp [List.append_assoc]

theorem decF_intersperse (t v : Str) : ∀ ps : List Str,
    decF (List.intersperse (Frag.tk t v) (ps.map Frag.lit)) = interc v ps := by
  intro ps
  induction ps with
  | nil => rfl
  | cons p qs ih =>
    cases qs with
    | nil => simp [decF, dec1, interc, List.intersperse]
    | cons q qs' =>
      simp only [List.map_cons, List.intersperse, decF, dec1] at ih ⊢
      rw [ih, interc_cons_of_ne_nil _ p (by simp)]
      simp [List.append_assoc]

theorem mem_intersperse {α : Type} {sep x : α} :
    ∀ {xs : List α}, x ∈ List.intersperse sep xs → x = sep ∨ x ∈ xs := by
  intro xs
  induction xs with
  | nil => intro h; simp [List.intersperse] at h
  | cons y ys ih =>
    intro h
    cases ys with
    | nil =>
      simp only [List.intersperse, List.mem_singleton] at h
      exact Or.inr (by simp [h])
    | cons z zs =>
      simp only [List.intersperse, List.mem_cons] at h
      rcases h with h | h | h
      · exact Or.inr (by simp [h])
      · exact Or.inl h
      · rcases ih (by simpa [List.intersperse] using h) with h' | h'
        · exact Or.inl h'
        · exact Or.inr (List.mem_cons_of_mem _ h')

/-- Where the fragments of a forward step come from. -/
theorem mem_stepFL {v t : Str} : ∀ {frags : List Frag} {f : Frag}, f ∈ stepFL v t frags →
    (∃ s p, Frag.lit s ∈ frags ∧ p ∈ splitAll s v ∧ f = .lit p)
    ∨ f = .tk t v
    ∨ (∃ t' v', Frag.tk t' v' ∈ frags ∧ f = .tk t' v') := by
  intro frags
  induction frags with
  | nil => intro f h; simp [stepFL] at h
  | cons g fs ih =>
    intro f h
    simp only [stepFL, List.mem_append] at h
    rcases h with h | h
    · cases g with
      | lit s =>
        simp only [stepF1] at h
        rcases mem_intersperse h with h' | h'
        · exact Or.inr (Or.inl h')
        · obtain ⟨p, hp, hf⟩ := List.mem_map.1 h'
          exact Or.inl ⟨s, p, List.mem_cons_self _ _, hp, hf.symm⟩
      | tk t' v' =>
        simp only [stepF1, List.mem_singleton] at h
        exact Or.inr (Or.inr ⟨t', v', List.mem_cons_self _ _, h⟩)
    · rcases ih h with ⟨s, p, hs, hp, hf⟩ | hf | ⟨t', v', ht', hf⟩
      · exact Or.inl ⟨s, p, List.mem_cons_of_mem _ hs, hp, hf⟩
      · exact Or.inr (Or.inl hf)
      · exact Or.inr (Or.inr ⟨t', v', List.mem_cons_of_mem _ ht', hf⟩)

theorem fragTokens_of_mem : ∀ {frags : List Frag} {t v : Str},
    Frag.tk t v ∈ frags → t ∈ fragTokens frags := by
  intro frags
  induction frags with
  | nil => intro t v h; simp at h
  | cons g fs ih =>
    intro t v h
    rcases List.mem_cons.1 h with heq | hmem
    · rw [← heq]
      simp [fragTokens]
    · cases g with
      | lit s => simpa [fragTokens] using ih hmem
      | tk t' v' =>
        simp only [fragTokens, List.mem_cons]
        exact Or.inr (ih hmem)

theorem bracketFree_of_sub {p s : Str} (hsub : ∀ c ∈ p, c ∈ s)
    (hs : bracketFree s = true) : bracketFree p = true := by
  simp only [bracketFree, List.all_eq_true, Bool.and_eq_true, decide_eq_true_eq] at hs ⊢
  exact fun c hc => hs c (hsub c hc)

/-- The encode-level effect of one forward step. -/
theorem stepFL_encode {v : Str} (t : Str) (hv : v ≠ []) (hvb : bracketFree v = true) :
    ∀ frags : List Frag, AltP frags →
    (∀ t' ∈ fragTokens frags, occurs v ('[' :: t' ++ [']']) = false) →
    pyReplace (encode frags) v ('[' :: t ++ [']']) = encode (stepFL v t frags) := by
  intro frags
  induction frags with
  | nil =>
    intro _ _
    exact pyReplace_nil _ hv
  | cons f fs ih =>
    intro halt htoks
    have hsplit : encode (f :: fs) = enc1 f ++ encode fs := rfl
    have hcross : ∀ A₁ A₂ : Str, enc1 f = A₁ ++ A₂ → A₂ ≠ [] →
        v.isPrefixOf (A₂ ++ encode fs) = true → v.length ≤ A₂.length := by
      cases f with
      | tk t' v' =>
        refine cross_of_last (c := ']') ?_ ?_
        · show ('[' :: t' ++ [']']).getLast? = some ']'
          rw [show ('[' :: t' ++ [']']) = ('[' :: t') ++ [']'] by simp]
          rw [List.getLast?_append_of_ne_nil _ (by simp)]
          rfl
        · exact (bracketFree_not_mem hvb).2
      | lit s =>
        refine cross_of_head ?_
        cases fs with
        | nil => exact Or.inl rfl
        | cons g gs =>
          cases g with
          | lit s' => exact absurd halt.1 (by simp [headNotLit])
          | tk t2 v2 =>
            refine Or.inr ⟨'[', (t2 ++ [']']) ++ encode gs, ?_, (bracketFree_not_mem hvb).1⟩
            simp [encode, enc1]
    have hdist : pyReplace (encode (f :: fs)) v ('[' :: t ++ [']'])
        = pyReplace (enc1 f) v ('[' :: t ++ [']'])
          ++ pyReplace (encode fs) v ('[' :: t ++ [']']) := by
      rw [hsplit]
      exact pyReplace_append_split _ hv (enc1 f).length _ _ (Nat.le_refl _) hcross
    rw [hdist]
    have hfs : pyReplace (encode fs) v ('[' :: t ++ [']']) = encode (stepFL v t fs) := by
      refine ih ?_ ?_
      · cases f with
        | lit s => exact halt.2
        | tk t' v' => exact halt
      · intro t' ht'
        refine htoks t' ?_
        cases f with
        | lit s => exact ht'
        | tk t2 v2 => exact List.mem_cons_of_mem _ ht'
    rw [hfs]
    have hfrag : pyReplace (enc1 f) v ('[' :: t ++ [']']) = encode (stepF1 v t f) := by
      cases f with
      | lit s =>
        show pyReplace s v ('[' :: t ++ [']']) = _
        rw [pyReplace_eq_interc _ hv s.length s (Nat.le_refl _)]
        rw [show stepF1 v t (Frag.lit s)
            = List.intersperse (Frag.tk t v) ((splitAll s v).map Frag.lit) from rfl]
        rw [encode_intersperse]
      | tk t' v' =>
        have hocc : occurs v ('[' :: t' ++ [']']) = false :=
          htoks t' (by simp [fragTokens])
        show pyReplace ('[' :: t' ++ [']']) v ('[' :: t ++ [']']) = _
        rw [pyReplace_no_occ _ _ hocc]
        simp [stepF1, encode, enc1]
    rw [hfrag]
    show _ = encode (stepF1 v t f ++ stepFL v t fs)
    rw [encode_append]

/-- The original-text flattening is invariant under forward steps. -/
theorem stepFL_decF {v : Str} (t : Str) (hv : v ≠ []) :
    ∀ frags : List Frag, decF (stepFL v t frags) = decF frags := by
  intro frags
  induction frags with
  | nil => rfl
  | cons f fs ih =>
    show decF (stepF1 v t f ++ stepFL v t fs) = dec1 f ++ decF fs
    rw [decF_append, ih]
    congr 1
    cases f with
    | lit s =>
      show decF (List.intersperse (Frag.tk t v) ((splitAll s v).map Frag.lit)) = s
      rw [decF_intersperse, interc_splitAll hv s.length s (Nat.le_refl _)]
    | tk t' v' => simp [stepF1, decF, dec1]

/-- Alternation is preserved by forward steps. -/
theorem altP_intersperse_append (t v : Str) :
    ∀ (ps : List Str) {zs : List Frag}, AltP zs → headNotLit zs →
      AltP (List.intersperse (Frag.tk t v) (ps.map Frag.lit) ++ zs) := by
  intro ps
  induction ps with
  | nil => intro zs hzs _; simpa using hzs
  | cons p qs ih =>
    intro zs hzs hhead
    cases qs with
    | nil => exact ⟨hhead, hzs⟩
    | cons q qs' =>
      show AltP (Frag.lit p :: Frag.tk t v :: (List.intersperse _ ((q :: qs').map Frag.lit) ++ zs))
      exact ⟨trivial, ih hzs hhead⟩

theorem headNotLit_stepFL (v t : Str) {fs : List Frag}
    (h : headNotLit fs) : headNotLit (stepFL v t fs) := by
  cases fs with
  | nil => trivial
  | cons g gs =>
    cases g with
    | lit s => exact absurd h (by simp [headNotLit])
    | tk t' v' => trivial

theorem stepFL_altP (v t : Str) :
    ∀ frags : List Frag, AltP frags → AltP (stepFL v t frags) := by
  intro frags
  induction frags with
  | nil => intro _; trivial
  | cons f fs ih =>
    intro halt
    cases f with
    | tk t' v' =>
      show AltP (Frag.tk t' v' :: stepFL v t fs)
      exact ih halt
    | lit s =>
      show AltP (List.intersperse (Frag.tk t v) ((splitAll s v).map Frag.lit) ++ stepFL v t fs)
      exact altP_intersperse_append t v _ (ih halt.2) (headNotLit_stepFL v t halt.1)

theorem stepFL_lits {v t : Str} (hv : v ≠ []) {frags : List Frag} (hlits : LitsOK frags) :
    LitsOK (stepFL v t frags) := by
  intro s hs
  rcases mem_stepFL hs with ⟨s₀, p, hs₀, hp, heq⟩ | heq | ⟨t', v', _, heq⟩
  · have hps : p = s := by injection heq.symm
    subst hps
    exact bracketFree_of_sub
      (fun c hc => splitAll_chars hv s₀.length s₀ (Nat.le_refl _) p hp c hc)
      (hlits s₀ hs₀)
  · cases heq
  · cases heq

theorem stepFL_toks {mp : SMap} {v t : Str} (hvt : alookup mp t = some v)
    {frags : List Frag} (htoks : ToksOK mp frags) : ToksOK mp (stepFL v t frags) := by
  intro t' v' h
  rcases mem_stepFL h with ⟨s₀, p, _, _, heq⟩ | heq | ⟨t₂, v₂, hmem, heq⟩
  · cases heq
  · have h1 : t' = t := by injection heq
    have h2 : v' = v := by injection heq
    rw [h1, h2]
    exact hvt
  · have h1 : t' = t₂ := by injection heq
    have h2 : v' = v₂ := by injection heq
    rw [h1, h2]
    exact htoks _ _ hmem

/-! ### The restore simulation: one restore step on fragments -/

theorem isPre_head {x c : Char} {xs t : Str}
    (h : (x :: xs).isPrefixOf (c :: t) = true) : x = c := by
  simp only [List.isPrefixOf, Bool.and_eq_true, beq_iff_eq] at h
  exact h.1

/-- The encode-level effect of one restore step: replacing the bracketed
token `t` rewrites exactly the `t`-fragments into their stored values. -/
theorem stepR_encode {t : Str} (v : Str) (ht : bracketFree t = true) :
    ∀ frags : List Frag, LitsOK frags →
    (∀ t' ∈ fragTokens frags, bracketFree t' = true) →
    pyReplace (encode frags) ('[' :: t ++ [']']) v = encode (stepR t v frags) := by
  intro frags
  have hw : ('[' :: t ++ [']'] : Str) ≠ [] := by simp
  induction frags with
  | nil =>
    intro _ _
    exact pyReplace_nil _ hw
  | cons f fs ih =>
    intro hlits htoksBF
    have hcross : ∀ A₁ A₂ : Str, enc1 f = A₁ ++ A₂ → A₂ ≠ [] →
        ('[' :: t ++ [']']).isPrefixOf (A₂ ++ encode fs) = true →
        ('[' :: t ++ [']']).length ≤ A₂.length := by
      cases f with
      | lit s =>
        intro A₁ A₂ hsplit hne hpre
        exfalso
        cases A₂ with
        | nil => exact hne rfl
        | cons d rest =>
          have hd : '[' = d := isPre_head hpre
          have hs' : s = A₁ ++ d :: rest := hsplit
          have hds : d ∈ s := by
            rw [hs']
            simp
          rw [← hd] at hds
          exact (bracketFree_not_mem (hlits s (List.mem_cons_self _ _))).1 hds
      | tk t' v' =>
        intro A₁ A₂ hsplit hne hpre
        have ht' : bracketFree t' = true := htoksBF t' (by simp [fragTokens])
        cases A₁ with
        | cons c A₁' =>
          exfalso
          cases A₂ with
          | nil => exact hne rfl
          | cons d rest =>
            have hd : '[' = d := isPre_head hpre
            have hds : d ∈ t' ++ [']'] := by
              have : enc1 (Frag.tk t' v') = '[' :: (t' ++ [']']) := by simp [enc1]
              rw [this] at hsplit
              have htl : t' ++ [']'] = A₁' ++ d :: rest := by
                have := hsplit
                simp only [List.cons_append, List.cons.injEq] at this
                exact this.2
              rw [htl]
              simp
            rw [← hd] at hds
            rcases List.mem_append.1 hds with hmem | hmem
            · exact (bracketFree_not_mem ht').1 hmem
            · simp at hmem
        | nil =>
          simp only [List.nil_append] at hsplit
          by_contra hgt
          push_neg at hgt
          obtain ⟨r, hr⟩ := exists_of_isPre hpre
          have hA : A₂ = ('[' :: t ++ [']']).take A₂.length :=
            calc A₂ = (A₂ ++ encode fs).take A₂.length := (List.take_left A₂ _).symm
            _ = (('[' :: t ++ [']']) ++ r).take A₂.length := by rw [hr]
            _ = ('[' :: t ++ [']']).take A₂.length :=
              List.take_append_of_le_length (Nat.le_of_lt hgt)
          have hdr : ('[' :: t ++ [']'] : Str) = A₂ ++ ('[' :: t ++ [']']).drop A₂.length := by
            conv_lhs => rw [← List.take_append_drop A₂.length ('[' :: t ++ [']'])]
            rw [← hA]
          rw [← hsplit] at hdr
          have henc : enc1 (Frag.tk t' v') = '[' :: (t' ++ [']']) := by simp [enc1]
          rw [henc] at hdr
          have h0 := hdr
          rw [show ('[' :: t ++ [']'] : Str) = '[' :: (t ++ [']']) by simp] at h0
          simp only [List.cons_append, List.cons.injEq] at h0
          have h1 := h0.2
          rw [List.append_assoc, List.singleton_append] at h1
          obtain ⟨hteq, _⟩ := closeBr_eq ht ht' h1
          have hlenA : A₂.length = t'.length + 2 := by
            rw [← hsplit, henc]
            simp
          have hlenW : ('[' :: t ++ [']']).length = t.length + 2 := by simp
          rw [hlenA, hlenW, hteq] at hgt
          omega
    have hdist : pyReplace (encode (f :: fs)) ('[' :: t ++ [']']) v
        = pyReplace (enc1 f) ('[' :: t ++ [']']) v
          ++ pyReplace (encode fs) ('[' :: t ++ [']']) v := by
      show pyReplace (enc1 f ++ encode fs) _ _ = _
      exact pyReplace_append_split _ hw (enc1 f).length _ _ (Nat.le_refl _) hcross
    rw [hdist]
    have hfs : pyReplace (encode fs) ('[' :: t ++ [']']) v = encode (stepR t v fs) := by
      refine ih (fun s hs => hlits s (List.mem_cons_of_mem _ hs)) ?_
      intro t' ht'
      refine htoksBF t' ?_
      cases f with
      | lit s => exact ht'
      | tk t2 v2 => exact List.mem_cons_of_mem _ ht'
    rw [hfs]
    cases f with
    | lit s =>
      have h1 : stepR t v (Frag.lit s :: fs) = Frag.lit s :: stepR t v fs := rfl
      rw [h1]
      show pyReplace s ('[' :: t ++ [']']) v ++ encode (stepR t v fs)
          = s ++ encode (stepR t v fs)
      rw [pyReplace_no_occ _ _ (occ_token_in_lit (hlits s (List.mem_cons_self _ _)))]
    | tk t' v' =>
      have ht' : bracketFree t' = true := htoksBF t' (by simp [fragTokens])
      by_cases het : t' = t
      · subst het
        have h1 : stepR t' v (Frag.tk t' v' :: fs) = Frag.lit v :: stepR t' v fs := by
          simp [stepR]
        rw [h1]
        show pyReplace ('[' :: t' ++ [']']) ('[' :: t' ++ [']']) v ++ encode (stepR t' v fs)
            = v ++ encode (stepR t' v fs)
        rw [pyReplace_self _ hw]
      · have h1 : stepR t v (Frag.tk t' v' :: fs) = Frag.tk t' v' :: stepR t v fs := by
          simp [stepR, het]
        rw [h1]
        show pyReplace ('[' :: t' ++ [']']) ('[' :: t ++ [']']) v ++ encode (stepR t v fs)
            = ('[' :: t' ++ [']']) ++ encode (stepR t v fs)
        rw [pyReplace_no_occ _ _ (occ_token_in_token ht ht' (fun h => het h.symm))]

/-- The original-text flattening is invariant under restore steps, when
every `t`-fragment stores the value being put back. -/
theorem stepR_decF (t v : Str) :
    ∀ frags : List Frag, (∀ v' : Str, Frag.tk t v' ∈ frags → v' = v) →
    decF (stepR t v frags) = decF frags := by
  intro frags
  induction frags with
  | nil => intro _; rfl
  | cons f fs ih =>
    intro hcons
    have htail := ih fun v' hmem => hcons v' (List.mem_cons_of_mem _ hmem)
    cases f with
    | lit s =>
      have h1 : stepR t v (Frag.lit s :: fs) = Frag.lit s :: stepR t v fs := rfl
      rw [h1]
      show s ++ decF (stepR t v fs) = s ++ decF fs
      rw [htail]
    | tk t' v' =>
      by_cases het : t' = t
      · subst het
        have hv' : v' = v := hcons v' (List.mem_cons_self _ _)
        have h1 : stepR t' v (Frag.tk t' v' :: fs) = Frag.lit v :: stepR t' v fs := by
          simp [stepR]
        rw [h1]
        show v ++ decF (stepR t' v fs) = v' ++ decF fs
        rw [htail, hv']
      · have h1 : stepR t v (Frag.tk t' v' :: fs) = Frag.tk t' v' :: stepR t v fs := by
          simp [stepR, het]
        rw [h1]
        show v' ++ decF (stepR t v fs) = v' ++ decF fs
        rw [htail]

/-- Fragments of a restore step: unchanged literals, the substituted
value, or unchanged tokens with a different name. -/
theorem mem_stepR {t v : Str} {frags : List Frag} {f : Frag} (h : f ∈ stepR t v frags) :
    (f = .lit v)
    ∨ (∃ s, Frag.lit s ∈ frags ∧ f = .lit s)
    ∨ (∃ t' v', Frag.tk t' v' ∈ frags ∧ t' ≠ t ∧ f = .tk t' v') := by
  obtain ⟨g, hg, hmap⟩ := List.mem_map.1 h
  cases g with
  | lit s => exact Or.inr (Or.inl ⟨s, hg, hmap.symm⟩)
  | tk t' v' =>
    by_cases het : t' = t
    · simp only [het, if_pos rfl] at hmap
      exact Or.inl hmap.symm
    · simp only [if_neg het] at hmap
      exact Or.inr (Or.inr ⟨t', v', hg, het, hmap.symm⟩)

/-! ### The two phases, folded -/

/-- Invariant bundle for the forward phase: the session map `mp` has
bracket-free keys, nonempty bracket-free values, and no value occurs
inside any bracketed key. -/
def MapOK (mp : SMap) : Prop :=
  ∀ p ∈ mp, bracketFree p.1 = true ∧ p.2 ≠ [] ∧ bracketFree p.2 = true ∧
    ∀ q ∈ mp, occurs p.2 ('[' :: q.1 ++ [']']) = false

/-- Forward phase: folding the performed replacements over the fragment
representation tracks the working text exactly and preserves the
original text and all invariants. -/
theorem stepOps_run {mp : SMap} (hmp : MapOK mp) :
    ∀ (ops : List (Str × Str)) (frags : List Frag),
    AltP frags → LitsOK frags → ToksOK mp frags →
    (∀ o ∈ ops, alookup mp o.2 = some o.1) →
    encode (stepOps frags ops) = applyOps (encode frags) ops
    ∧ decF (stepOps frags ops) = decF frags
    ∧ AltP (stepOps frags ops) ∧ LitsOK (stepOps frags ops)
    ∧ ToksOK mp (stepOps frags ops) := by
  intro ops
  induction ops with
  | nil =>
    intro frags h1 h2 h3 _
    exact ⟨rfl, rfl, h1, h2, h3⟩
  | cons o os ih =>
    intro frags halt hlits htoks hops
    obtain ⟨v, t⟩ := o
    have hvt : alookup mp t = some v := hops _ (List.mem_cons_self _ _)
    have hmem : (t, v) ∈ mp := alookup_mem hvt
    have hv : v ≠ [] := (hmp _ hmem).2.1
    have hvb : bracketFree v = true := (hmp _ hmem).2.2.1
    have htoksOcc : ∀ t' ∈ fragTokens frags, occurs v ('[' :: t' ++ [']']) = false := by
      intro t' ht'
      obtain ⟨v', hv'⟩ := mem_of_fragTokens ht'
      exact (hmp _ hmem).2.2.2 _ (alookup_mem (htoks _ _ hv'))
    have e1 : pyReplace (encode frags) v ('[' :: t ++ [']']) = encode (stepFL v t frags) :=
      stepFL_encode t hv hvb frags halt htoksOcc
    have hrec := ih (stepFL v t frags) (stepFL_altP v t frags halt)
      (stepFL_lits hv hlits) (stepFL_toks hvt htoks)
      (fun o' ho' => hops o' (List.mem_cons_of_mem _ ho'))
    have hfold : stepOps frags ((v, t) :: os) = stepOps (stepFL v t frags) os := rfl
    have hfold2 : applyOps (encode frags) ((v, t) :: os)
        = applyOps (pyReplace (encode frags) v ('[' :: t ++ [']'])) os := rfl
    refine ⟨?_, ?_, ?_, ?_, ?_⟩
    · rw [hfold, hrec.1, hfold2, e1]
    · rw [hfold, hrec.2.1, stepFL_decF t hv frags]
    · rw [hfold]
      exact hrec.2.2.1
    · rw [hfold]
      exact hrec.2.2.2.1
    · rw [hfold]
      exact hrec.2.2.2.2

/-- Restore phase: folding the session map over the redacted text puts
back exactly the original text. -/
theorem stepRs_restore :
    ∀ (mpRest : SMap) (frags : List Frag),
    LitsOK frags →
    (∀ t' ∈ fragTokens frags, bracketFree t' = true) →
    (∀ t' v' : Str, Frag.tk t' v' ∈ frags → alookup mpRest t' = some v') →
    (∀ p ∈ mpRest, bracketFree p.1 = true ∧ bracketFree p.2 = true) →
    restoreFold mpRest (encode frags) = decF frags := by
  intro mpRest
  induction mpRest with
  | nil =>
    intro frags _ _ hcons _
    have hno : ∀ t v : Str, Frag.tk t v ∉ frags := by
      intro t v hmemf
      have := hcons t v hmemf
      simp [alookup] at this
    exact decF_eq_encode_of_no_tk hno
  | cons e rest ih =>
    intro frags hlits htoksBF hcons hmpBF
    obtain ⟨t, v⟩ := e
    have ht : bracketFree t = true := (hmpBF _ (List.mem_cons_self _ _)).1
    have hvb : bracketFree v = true := (hmpBF _ (List.mem_cons_self _ _)).2
    have h1 : restoreFold ((t, v) :: rest) (encode frags)
        = restoreFold rest (pyReplace (encode frags) ('[' :: t ++ [']']) v) := rfl
    rw [h1, stepR_encode v ht frags hlits htoksBF]
    have hlits' : LitsOK (stepR t v frags) := by
      intro s hs
      rcases mem_stepR hs with heq | ⟨s', hs', heq⟩ | ⟨t', v', _, _, heq⟩
      · have hsv : s = v := by
          injection heq with h2
        rw [hsv]
        exact hvb
      · have hss : s = s' := by
          injection heq with h2
        rw [hss]
        exact hlits s' hs'
      · cases heq
    have htoksBF' : ∀ t' ∈ fragTokens (stepR t v frags), bracketFree t' = true := by
      intro t' ht'
      obtain ⟨v', hv'⟩ := mem_of_fragTokens ht'
      rcases mem_stepR hv' with heq | ⟨s', _, heq⟩ | ⟨t₂, v₂, hmem₂, _, heq⟩
      · cases heq
      · cases heq
      · have h2 : t' = t₂ := by injection heq
        rw [h2]
        exact htoksBF t₂ (fragTokens_of_mem hmem₂)
    have hcons' : ∀ t' v' : Str, Frag.tk t' v' ∈ stepR t v frags →
        alookup rest t' = some v' := by
      intro t' v' hmemf
      rcases mem_stepR hmemf with heq | ⟨s', _, heq⟩ | ⟨t₂, v₂, hmem₂, hne₂, heq⟩
      · cases heq
      · cases heq
      · have h2 : t' = t₂ := by injection heq
        have h3 : v' = v₂ := by injection heq
        subst h2
        subst h3
        have h4 := hcons t' v' hmem₂
        simp only [alookup] at h4
        rw [if_neg] at h4
        · exact h4
        · exact fun h => hne₂ h.symm
    rw [ih (stepR t v frags) hlits' htoksBF' hcons'
      (fun p hp => hmpBF p (List.mem_cons_of_mem _ hp))]
    refine stepR_decF t v frags ?_
    intro v' hmemf
    have h4 := hcons t v' hmemf
    simp [alookup] at h4
    exact h4.symm

/-- The core round-trip fact: performing a list of replacements whose
tokens all map back to their values in `mp`, then folding `mp`'s
restore loop, recovers a bracket-free original text. -/
theorem restoreFold_applyOps (T : Str) (ops : List (Str × Str)) (mp : SMap)
    (hT : bracketFree T = true) (hmp : MapOK mp)
    (hops : ∀ o ∈ ops, alookup mp o.2 = some o.1) :
    restoreFold mp (applyOps T ops) = T := by
  have hAlt : AltP [Frag.lit T] := ⟨trivial, trivial⟩
  have hLits : LitsOK [Frag.lit T] := by
    intro s hs
    simp only [List.mem_singleton, Frag.lit.injEq] at hs
    rw [hs]
    exact hT
  have hToks : ToksOK mp [Frag.lit T] := by
    intro t v hmem
    simp at hmem
  obtain ⟨he, hd, _, hlits, htoks⟩ := stepOps_run hmp ops [Frag.lit T] hAlt hLits hToks hops
  have hsingle : encode [Frag.lit T] = T := by simp [encode, enc1]
  have hdsingle : decF [Frag.lit T] = T := by simp [decF, dec1]
  rw [hsingle] at he
  rw [hdsingle] at hd
  rw [← he]
  rw [stepRs_restore mp (stepOps [Frag.lit T] ops) hlits ?_ htoks ?_]
  · exact hd
  · intro t' ht'
    obtain ⟨v', hv'⟩ := mem_of_fragTokens ht'
    exact (hmp _ (alookup_mem (htoks _ _ hv'))).1
  · intro p hp
    exact ⟨(hmp p hp).1, (hmp p hp).2.2.1⟩

/-- A nonempty original cannot be replaced away entirely: every
replacement inserts a bracketed token in place of the removed value. -/
theorem applyOps_ne_nil (T : Str) (ops : List (Str × Str)) (mp : SMap)
    (hT : bracketFree T = true) (hmp : MapOK mp)
    (hops : ∀ o ∈ ops, alookup mp o.2 = some o.1) (hT0 : T ≠ []) :
    applyOps T ops ≠ [] := by
  have hAlt : AltP [Frag.lit T] := ⟨trivial, trivial⟩
  have hLits : LitsOK [Frag.lit T] := by
    intro s hs
    simp only [List.mem_singleton, Frag.lit.injEq] at hs
    rw [hs]
    exact hT
  have hToks : ToksOK mp [Frag.lit T] := by
    intro t v hmem
    simp at hmem
  obtain ⟨he, hd, _, _, _⟩ := stepOps_run hmp ops [Frag.lit T] hAlt hLits hToks hops
  have hsingle : encode [Frag.lit T] = T := by simp [encode, enc1]
  have hdsingle : decF [Frag.lit T] = T := by simp [decF, dec1]
  rw [hsingle] at he
  rw [hdsingle] at hd
  intro h0
  rw [← he] at h0
  rw [encode_nil_decF h0] at hd
  exact hT0 hd.symm

/-! ### Bridging the engine's loops to the replacement trace -/

theorem applyOps_append (T : Str) (δ₁ δ₂ : List (Str × Str)) :
    applyOps T (δ₁ ++ δ₂) = applyOps (applyOps T δ₁) δ₂ :=
  List.foldl_append _ _ _ _

theorem knownPass_trace : ∀ (names : List Str) (w : Working),
    ∃ δ, (knownPass names w).ops = w.ops ++ δ ∧ (knownPass names w).text = applyOps w.text δ := by
  intro names
  induction names with
  | nil =>
    intro w
    exact ⟨[], by simp [knownPass], rfl⟩
  | cons name rest ih =>
    intro w
    by_cases hocc : occurs name w.text = true
    · have hstep : knownPass (name :: rest) w = knownPass rest
          { text := pyReplace w.text name
              ('[' :: (getOrCreateToken w.smap w.ctrs "PERSON".toList name).1 ++ [']']),
            smap := (getOrCreateToken w.smap w.ctrs "PERSON".toList name).2.1,
            ctrs := (getOrCreateToken w.smap w.ctrs "PERSON".toList name).2.2,
            meta := insertA w.meta (getOrCreateToken w.smap w.ctrs "PERSON".toList name).1
              ("PERSON".toList, name, "Known person name".toList),
            ops := w.ops ++ [(name, (getOrCreateToken w.smap w.ctrs "PERSON".toList name).1)] } := by
        simp only [knownPass, hocc, if_true]
      obtain ⟨δ, h1, h2⟩ := ih _
      rw [hstep]
      refine ⟨(name, (getOrCreateToken w.smap w.ctrs "PERSON".toList name).1) :: δ, ?_, ?_⟩
      · rw [h1]
        simp
      · rw [h2]
        rfl
    · have hstep : knownPass (name :: rest) w = knownPass rest w := by
        simp only [knownPass, hocc, Bool.false_eq_true, if_false]
      rw [hstep]
      exact ih w

theorem matchPass_trace (label descr : Str) : ∀ (ms : List Str) (w : Working),
    ∃ δ, (matchPass label descr ms w).ops = w.ops ++ δ
      ∧ (matchPass label descr ms w).text = applyOps w.text δ := by
  intro ms
  induction ms with
  | nil =>
    intro w
    exact ⟨[], by simp [matchPass], rfl⟩
  | cons m ms' ih =>
    intro w
    by_cases hskip : m.head? = some '[' ∧ m.getLast? = some ']'
    · have hstep : matchPass label descr (m :: ms') w = matchPass label descr ms' w := by
        simp only [matchPass, if_pos hskip]
      rw [hstep]
      exact ih w
    · have hstep : matchPass label descr (m :: ms') w = matchPass label descr ms'
          { text := pyReplace w.text m
              ('[' :: (getOrCreateToken w.smap w.ctrs label m).1 ++ [']']),
            smap := (getOrCreateToken w.smap w.ctrs label m).2.1,
            ctrs := (getOrCreateToken w.smap w.ctrs label m).2.2,
            meta := insertA w.meta (getOrCreateToken w.smap w.ctrs label m).1 (label, m, descr),
            ops := w.ops ++ [(m, (getOrCreateToken w.smap w.ctrs label m).1)] } := by
        simp only [matchPass, if_neg hskip]
      obtain ⟨δ, h1, h2⟩ := ih _
      rw [hstep]
      refine ⟨(m, (getOrCreateToken w.smap w.ctrs label m).1) :: δ, ?_, ?_⟩
      · rw [h1]
        simp
      · rw [h2]
        rfl

theorem patternPass_trace : ∀ (pats : List (String × RE × Str × Str)) (w : Working),
    ∃ δ, (patternPass pats w).ops = w.ops ++ δ
      ∧ (patternPass pats w).text = applyOps w.text δ := by
  intro pats
  induction pats with
  | nil =>
    intro w
    exact ⟨[], by simp [patternPass], rfl⟩
  | cons p rest ih =>
    intro w
    obtain ⟨key, re0, label, descr⟩ := p
    have hstep : patternPass ((key, re0, label, descr) :: rest) w
        = patternPass rest (matchPass label descr (findIter re0 w.text) w) := rfl
    rw [hstep]
    obtain ⟨δ₁, h1, h2⟩ := matchPass_trace label descr (findIter re0 w.text) w
    obtain ⟨δ₂, h3, h4⟩ := ih (matchPass label descr (findIter re0 w.text) w)
    refine ⟨δ₁ ++ δ₂, ?_, ?_⟩
    · rw [h3, h1, List.append_assoc]
    · rw [h4, h2, applyOps_append]

/-- The full engine as a replacement trace: for nonempty text, the
redacted output is the input transformed by the ghost `ops` list. -/
theorem redactFull_trace (st : RedactorState) (T : Str) (sid : String) (hT0 : T ≠ []) :
    (redactFull st T sid).1 = applyOps T (redactFull st T sid).2.2.2 := by
  have hr : redactFull st T sid
      = (let w := patternPass PII_PATTERNS (knownPass KNOWN_NAMES
           ⟨T, (sessionView st sid).1, (sessionView st sid).2, [], []⟩)
         (w.text, w.meta,
          ⟨insertA st.redaction_map sid w.smap, insertA st.token_counters sid w.ctrs⟩,
          w.ops)) := by
    unfold redactFull redactFullWith
    rw [if_neg hT0]
  rw [hr]
  show (patternPass PII_PATTERNS (knownPass KNOWN_NAMES
      ⟨T, (sessionView st sid).1, (sessionView st sid).2, [], []⟩)).text
    = applyOps T (patternPass PII_PATTERNS (knownPass KNOWN_NAMES
      ⟨T, (sessionView st sid).1, (sessionView st sid).2, [], []⟩)).ops
  obtain ⟨δ₁, h1, h2⟩ := knownPass_trace KNOWN_NAMES
    ⟨T, (sessionView st sid).1, (sessionView st sid).2, [], []⟩
  obtain ⟨δ₂, h3, h4⟩ := patternPass_trace PII_PATTERNS (knownPass KNOWN_NAMES
    ⟨T, (sessionView st sid).1, (sessionView st sid).2, [], []⟩)
  rw [h4, h2, h3, h1]
  show applyOps (applyOps T δ₁) δ₂ = applyOps T (([] ++ δ₁) ++ δ₂)
  rw [List.nil_append, applyOps_append]

/-! ### The round-trip claim -/

/-- Decidable trace conditions under which a `redact` call round-trips:
in the session's resulting token map, keys are bracket-free, values are
nonempty, bracket-free and never occur inside a bracketed key, and every
replacement the call performed used a token that the final map sends
back to the replaced value.  All hold in ordinary runs (see the
witness); they can fail only for adversarial session states or token
collisions. -/
def RunOK (st : RedactorState) (text : Str) (sid : String) : Bool :=
  let r := redactFull st text sid
  let mp := (alookup r.2.2.1.redaction_map sid).getD []
  (mp.all fun p => bracketFree p.1 && decide (p.2 ≠ []) && bracketFree p.2 &&
    (mp.all fun q => decide (occurs p.2 ('[' :: q.1 ++ [']']) = false)))
  && (r.2.2.2.all fun o => decide (alookup mp o.2 = some o.1))

/-- C1 (amended).  Round-trip: `restore(redact(T, S)[0], S) == T` for any
text `T` that contains no square-bracket characters, whenever the run
satisfies the trace conditions `RunOK` (which capture the claim's
preconditions that the detected values are well-behaved: nonempty,
bracket-free, not nested inside any session token, and consistently
mapped by the session's final token map). -/
theorem claim_round_trip_amended (st : RedactorState) (T : Str) (sid : String)
    (hT : bracketFree T = true) (hok : RunOK st T sid = true) :
    restore (redact st T sid).2.2 (redact st T sid).1 sid = T := by
  by_cases hT0 : T = []
  · subst hT0
    rfl
  · have hr : redactFull st T sid
        = ((patternPass PII_PATTERNS (knownPass KNOWN_NAMES
             ⟨T, (sessionView st sid).1, (sessionView st sid).2, [], []⟩)).text,
           (patternPass PII_PATTERNS (knownPass KNOWN_NAMES
             ⟨T, (sessionView st sid).1, (sessionView st sid).2, [], []⟩)).meta,
           ⟨insertA st.redaction_map sid (patternPass PII_PATTERNS (knownPass KNOWN_NAMES
              ⟨T, (sessionView st sid).1, (sessionView st sid).2, [], []⟩)).smap,
            insertA st.token_counters sid (patternPass PII_PATTERNS (knownPass KNOWN_NAMES
              ⟨T, (sessionView st sid).1, (sessionView st sid).2, [], []⟩)).ctrs⟩,
           (patternPass PII_PATTERNS (knownPass KNOWN_NAMES
             ⟨T, (sessionView st sid).1, (sessionView st sid).2, [], []⟩)).ops) := by
      unfold redactFull redactFullWith
      rw [if_neg hT0]
    set W := patternPass PII_PATTERNS (knownPass KNOWN_NAMES
      ⟨T, (sessionView st sid).1, (sessionView st sid).2, [], []⟩) with hWdef
    have hlook : alookup (insertA st.redaction_map sid W.smap) sid = some W.smap :=
      alookup_insertA_self _ _ _
    have hok' := hok
    unfold RunOK at hok'
    rw [hr] at hok'
    simp only [alookup_insertA_self, Option.getD_some, Bool.and_eq_true] at hok'
    have hMapOK : MapOK W.smap := by
      intro p hp
      have h1 := (List.all_eq_true.1 hok'.1) p hp
      simp only [Bool.and_eq_true, decide_eq_true_eq] at h1
      refine ⟨h1.1.1.1, h1.1.1.2, h1.1.2, ?_⟩
      intro q hq
      have h2 := (List.all_eq_true.1 h1.2) q hq
      simpa using h2
    have hops : ∀ o ∈ W.ops, alookup W.smap o.2 = some o.1 := by
      intro o ho
      have h3 := (List.all_eq_true.1 hok'.2) o ho
      simpa using h3
    have htrace : W.text = applyOps T W.ops := by
      have h4 := redactFull_trace st T sid hT0
      rw [hr] at h4
      exact h4
    have hne : W.text ≠ [] := by
      rw [htrace]
      exact applyOps_ne_nil T W.ops W.smap hT hMapOK hops hT0
    have hredact : redact st T sid
        = (W.text, W.meta,
           ⟨insertA st.redaction_map sid W.smap, insertA st.token_counters sid W.ctrs⟩) := by
      unfold redact
      rw [hr]
    rw [hredact]
    show restore ⟨insertA st.redaction_map sid W.smap,
      insertA st.token_counters sid W.ctrs⟩ W.text sid = T
    unfold restore
    rw [if_neg hne]
    show (match alookup (insertA st.redaction_map sid W.smap) sid with
          | none => W.text
          | some m => m.foldl (fun tx tv => pyReplace tx ('[' :: tv.1 ++ [']']) tv.2) W.text) = T
    rw [hlook]
    show restoreFold W.smap W.text = T
    rw [htrace]
    exact restoreFold_applyOps T W.ops W.smap hT hMapOK hops

/-- Witness for the amended C1 on a concrete run: a fresh session and a
text holding one known name round-trips exactly. -/
theorem claim_round_trip_amended_witness :
    bracketFree "Srinivas is here".toList = true
    ∧ RunOK freshState "Srinivas is here".toList "s" = true
    ∧ restore (redact freshState "Srinivas is here".toList "s").2.2
        (redact freshState "Srinivas is here".toList "s").1 "s" = "Srinivas is here".toList :=
  ⟨by decide, by decide,
   claim_round_trip_amended freshState _ "s" (by decide) (by decide)⟩

/-- Counterexample to C1 as stated: `T = "Srinivas [PERSON_1]"` in a
fresh session satisfies the claim's preconditions — its only detected
value, `"Srinivas"`, is drawn from the Known-Value List, and a single
detected value cannot be a substring of another — yet the round trip
fails: `redact` replaces `"Srinivas"` with `[PERSON_1]`, the
pre-existing literal `[PERSON_1]` in the text collides with the minted
token, and `restore` therefore returns `"Srinivas Srinivas"`. -/
theorem claim_round_trip_counterexample :
    ("Srinivas".toList ∈ KNOWN_NAMES)
    ∧ ((redact freshState "Srinivas [PERSON_1]".toList "s").2.1.map fun p => p.2.2.1)
        = ["Srinivas".toList]
    ∧ restore (redact freshState "Srinivas [PERSON_1]".toList "s").2.2
        (redact freshState "Srinivas [PERSON_1]".toList "s").1 "s"
      = "Srinivas Srinivas".toList
    ∧ restore (redact freshState "Srinivas [PERSON_1]".toList "s").2.2
        (redact freshState "Srinivas [PERSON_1]".toList "s").1 "s"
      ≠ "Srinivas [PERSON_1]".toList := by
  refine ⟨by decide, by decide, by decide, by decide⟩

end PIIProof
